import Mathlib

/-!
Formal model of the scoring core of the IT-JOBS dashboard
(src/Dashboard/recommendation.py), with the data-loading step of
src/Dashboard/db.py treated as an opaque table input.

Conventions of the embedding:
- Python strings are Lean String; the regex \d+ of re.findall is modelled
  over ASCII decimal digits (the salary strings the program handles are
  ASCII).
- Python None / pandas NaN propagating through a numeric column is
  modelled as Option: none stands for a missing value (None before
  pandas type inference, NaN after), some q for the float value q read
  as an exact rational.
- pandas float arithmetic is modelled over the rationals; the only float
  behaviours the claims touch (0/0 and arithmetic on NaN give NaN, min
  and max skip NaN) are modelled explicitly on Option.
-/

namespace ITJobs

/-! ## SalaryParser: parse_salary (recommendation.py lines 51-59) -/

/-- Model of the Python expression salary_range.replace(",", "") :
remove every comma character. -/
def stripCommas (s : String) : String :=
  ⟨s.data.filter (fun c => c ≠ ',')⟩

/-- Scanner for digitRuns: acc holds the digits of the run currently being
read, in reverse; a non-digit character (or the end of input) closes the
current run. -/
def digitRunsAux : List Char → List Char → List (List Char)
  | [], acc => if acc.isEmpty then [] else [acc.reverse]
  | c :: rest, acc =>
    if c.isDigit then
      digitRunsAux rest (c :: acc)
    else if acc.isEmpty then
      digitRunsAux rest []
    else
      acc.reverse :: digitRunsAux rest []

/-- Model of re.findall applied with the pattern of one or more digits to a
string: the list of maximal runs of decimal digits, in order of appearance. -/
def digitRuns (cs : List Char) : List (List Char) :=
  digitRunsAux cs []

/-- Model of Python int() applied to a nonempty string of decimal digits. -/
def decVal (cs : List Char) : Nat :=
  cs.foldl (fun a c => 10 * a + (c.toNat - 48)) 0

/-- Model of parse_salary (recommendation.py lines 51-59).  The Python body
strips commas, collects the digit runs, and returns
(int(match[0]), int(match[-1]) if len(match) > 1 else int(match[0]));
with no run it returns (None, None).  On a string input the try/except
wrapper can never fire (str.replace, re.findall and int on a digit run do
not raise), so the except branch coincides with the no-run branch. -/
def parse_salary (salary_range : String) : Option Nat × Option Nat :=
  match digitRuns (stripCommas salary_range).data with
  | [] => (none, none)
  | r :: rs =>
    (some (decVal r),
      if (r :: rs).length > 1 then
        some (decVal ((r :: rs).getLast (List.cons_ne_nil r rs)))
      else
        some (decVal r))

theorem digitRunsAux_sound (cs : List Char) :
    ∀ acc, (∀ c ∈ acc, c.isDigit) →
      ∀ r ∈ digitRunsAux cs acc, r ≠ [] ∧ ∀ c ∈ r, c.isDigit := by
  induction cs with
  | nil =>
    intro acc hacc r hr
    by_cases h : acc.isEmpty
    · simp [digitRunsAux, h] at hr
    · simp only [digitRunsAux, h, Bool.false_eq_true, if_false, List.mem_singleton] at hr
      subst hr
      refine ⟨?_, fun c hc => hacc c (List.mem_reverse.mp hc)⟩
      simpa [List.isEmpty_iff] using h
  | cons c rest ih =>
    intro acc hacc r hr
    by_cases hd : c.isDigit
    · rw [digitRunsAux, if_pos hd] at hr
      refine ih (c :: acc) ?_ r hr
      intro x hx
      rw [List.mem_cons] at hx
      rcases hx with rfl | hx
      · exact hd
      · exact hacc x hx
    · rw [digitRunsAux, if_neg hd] at hr
      by_cases he : acc.isEmpty
      · rw [if_pos he] at hr
        exact ih [] (by simp) r hr
      · rw [if_neg he] at hr
        rw [List.mem_cons] at hr
        rcases hr with rfl | hr
        · refine ⟨?_, fun x hx => hacc x (List.mem_reverse.mp hx)⟩
          simpa [List.isEmpty_iff] using he
        · exact ih [] (by simp) r hr

/-- Every run produced by digitRuns is a nonempty all-digit string:
the extraction really yields digit runs. -/
theorem digitRuns_sound (cs : List Char) :
    ∀ r ∈ digitRuns cs, r ≠ [] ∧ ∀ c ∈ r, c.isDigit :=
  digitRunsAux_sound cs [] (by simp)

/-- C5: salary parsing strips the comma separators and extracts the maximal
digit runs in order: zero runs yield (none, none), exactly one run yields
(value, value), two or more runs yield (first value, last value); on the
four concrete inputs of the spec it returns (40000, 60000), (50000, 50000),
(none, none) and (none, none).  On a string input no internal exception can
arise, so the except branch of the source coincides with the zero-run
branch already covered here. -/
theorem parse_salary_spec (s : String) :
    (digitRuns (stripCommas s).data = [] → parse_salary s = (none, none)) ∧
    (∀ r, digitRuns (stripCommas s).data = [r] →
      parse_salary s = (some (decVal r), some (decVal r))) ∧
    (∀ r rs, rs ≠ [] → digitRuns (stripCommas s).data = r :: rs →
      parse_salary s =
        (some (decVal r), some (decVal ((r :: rs).getLast (List.cons_ne_nil r rs))))) ∧
    parse_salary "£40,000 - £60,000" = (some 40000, some 60000) ∧
    parse_salary "Up to £50,000" = (some 50000, some 50000) ∧
    parse_salary "" = (none, none) ∧
    parse_salary "n/a" = (none, none) := by
  refine ⟨?_, ?_, ?_, by decide, by decide, by decide, by decide⟩
  · intro h
    simp [parse_salary, h]
  · intro r h
    simp [parse_salary, h]
  · intro r rs hne h
    have hlen : (r :: rs).length > 1 :=
      Nat.succ_lt_succ (List.length_pos.mpr hne)
    simp [parse_salary, h, hlen]
    intro hh
    exact absurd hh hne

/-- Witness for parse_salary_spec: the single-run case at the concrete
input of the spec. -/
theorem parse_salary_spec_witness :
    parse_salary "Up to £50,000" =
      (some (decVal ['5', '0', '0', '0', '0']), some (decVal ['5', '0', '0', '0', '0'])) :=
  (parse_salary_spec "Up to £50,000").2.1 ['5', '0', '0', '0', '0'] (by decide)

/-- C10: salary parsing imposes no ordering on the returned pair: the input
with the two digit runs 60000 and 40000, first exceeding last, parses to
(60000, 40000), a pair whose first component is strictly greater than the
second. -/
theorem parse_salary_unordered :
    (digitRuns (stripCommas "60,000 - 40,000").data).length = 2 ∧
    parse_salary "60,000 - 40,000" = (some 60000, some 40000) ∧
    40000 < 60000 :=
  ⟨by decide, by decide, by decide⟩

/-! ## Data loading: load_data (recommendation.py lines 62-72)

fetch_data (db.py) returns the job_opportunities table as a data frame;
its rows are opaque inputs here.  Fields that the SQL table may hold as
NULL are Option valued. -/

/-- A row of the table returned by fetch_data, before any cleaning. -/
structure RawJob where
  job_title : String
  company : String
  location : String
  experience_level : String
  required_skills : Option String
  salary_range : Option String
  job_description : String
deriving DecidableEq

/-- A row of the data frame produced by load_data: required_skills and
salary_range are known present (dropna), and the two parsed salary columns
have been added; each may still be none when the text held no digits. -/
structure Job where
  job_title : String
  company : String
  location : String
  experience_level : String
  required_skills : String
  salary_range : String
  salary_min : Option Nat
  salary_max : Option Nat
deriving DecidableEq, Inhabited

/-- Model of load_data (recommendation.py lines 63-69): drop the rows whose
required_skills or salary_range is NULL, then add salary_min and salary_max
by applying parse_salary to salary_range.  Rows whose salary_range text
parses to (None, None) are NOT dropped: their new columns are simply None
(NaN after pandas type inference). -/
def load_data (tbl : List RawJob) : List Job :=
  tbl.filterMap (fun r =>
    match r.required_skills, r.salary_range with
    | some sk, some sr =>
      some { job_title := r.job_title, company := r.company,
             location := r.location, experience_level := r.experience_level,
             required_skills := sk, salary_range := sr,
             salary_min := (parse_salary sr).1, salary_max := (parse_salary sr).2 }
    | _, _ => none)

/-! ## SalaryNormalizer (recommendation.py lines 87-88)

The pandas expression
  (df.salary_min - df.salary_min.min()) / (df.salary_min.max() - df.salary_min.min())
over a float64 column with possible NaN entries.  Option models the floats:
none is NaN, some q a finite value.  min and max skip NaN (pandas skipna
default); arithmetic on NaN gives NaN.  The only division by zero the
program can perform here is 0/0 (a zero denominator forces every present
value to equal the minimum, hence a zero numerator), and float 0/0 is NaN,
so the zero-denominator branch of nanDiv is none. -/

/-- Comparison-based minimum of two rationals. -/
def qmin (a b : ℚ) : ℚ := if a ≤ b then a else b

/-- Comparison-based maximum of two rationals. -/
def qmax (a b : ℚ) : ℚ := if b ≤ a then a else b

/-- Minimum of a list of rationals (none on the empty list). -/
def listMin : List ℚ → Option ℚ
  | [] => none
  | v :: vs => some (vs.foldl qmin v)

/-- Maximum of a list of rationals (none on the empty list). -/
def listMax : List ℚ → Option ℚ
  | [] => none
  | v :: vs => some (vs.foldl qmax v)

/-- The present (non-NaN) values of a float column. -/
def someValues (xs : List (Option ℚ)) : List ℚ :=
  xs.filterMap id

/-- Float subtraction: NaN on either side gives NaN. -/
def nanSub (a b : Option ℚ) : Option ℚ :=
  match a, b with
  | some x, some y => some (x - y)
  | _, _ => none

/-- Float division as used by the normalization: NaN operand or a zero
denominator (necessarily 0/0 here) gives NaN. -/
def nanDiv (a b : Option ℚ) : Option ℚ :=
  match a, b with
  | some x, some y => if y = 0 then none else some (x / y)
  | _, _ => none

/-- Model of the salary score normalization (recommendation.py lines
87-88). -/
def normalize_salaries (xs : List (Option ℚ)) : List (Option ℚ) :=
  let m := listMin (someValues xs)
  let M := listMax (someValues xs)
  xs.map (fun v => nanDiv (nanSub v m) (nanSub M m))

/-- The salary_min column of a loaded frame, as the float column handed to
the normalization inside enhanced_recommendations. -/
def salaryColumn (jobs : List Job) : List (Option ℚ) :=
  jobs.map (fun j => j.salary_min.map (fun n => (n : ℚ)))

/-- A fetched row whose salary_range text is present but holds no digits. -/
def naRow : RawJob :=
  { job_title := "Data Analyst", company := "Acme", location := "London",
    experience_level := "Mid", required_skills := some "python, sql",
    salary_range := some "Competitive", job_description := "" }

/-- C1 counterexample: the record naRow has a salary_range text that parses
to (none, none), yet load_data keeps it: the loaded frame has one row, the
salary_min column handed to scoring is [none], and the normalization does
receive that null (and returns NaN for it). -/
theorem load_data_keeps_unparseable_row :
    parse_salary "Competitive" = (none, none) ∧
    (load_data [naRow]).length = 1 ∧
    salaryColumn (load_data [naRow]) = [none] ∧
    normalize_salaries (salaryColumn (load_data [naRow])) = [none] := by
  have h : salaryColumn (load_data [naRow]) = [none] := by decide
  refine ⟨by decide, by decide, h, ?_⟩
  rw [h]
  simp [normalize_salaries, someValues, listMin, listMax, nanSub, nanDiv]

/-- C1 amended: load_data excludes exactly the rows whose required_skills
or salary_range field is NULL.  A row whose salary_range is present but
unparseable is kept, with salary_min = none; that null appears in the
salary column handed to scoring, and the normalization receives it and
propagates it as NaN (none) instead of never seeing a null. -/
theorem load_data_null_salary_flow (tbl : List RawJob) (r : RawJob)
    (sk sr : String) (hr : r ∈ tbl) (hsk : r.required_skills = some sk)
    (hsr : r.salary_range = some sr) (hp : (parse_salary sr).1 = none) :
    (∃ j ∈ load_data tbl, j.required_skills = sk ∧ j.salary_range = sr ∧
      j.salary_min = none) ∧
    none ∈ salaryColumn (load_data tbl) ∧
    (∀ (xs : List (Option ℚ)) (i : Nat), xs[i]? = some none →
      (normalize_salaries xs)[i]? = some none) := by
  have hj : ∃ j ∈ load_data tbl, j.required_skills = sk ∧ j.salary_range = sr ∧
      j.salary_min = none := by
    refine ⟨{ job_title := r.job_title, company := r.company,
              location := r.location, experience_level := r.experience_level,
              required_skills := sk, salary_range := sr,
              salary_min := (parse_salary sr).1,
              salary_max := (parse_salary sr).2 },
            List.mem_filterMap.mpr ⟨r, hr, ?_⟩, rfl, rfl, hp⟩
    rw [hsk, hsr]
  refine ⟨hj, ?_, ?_⟩
  · obtain ⟨j, hjm, _, _, hjmin⟩ := hj
    exact List.mem_map.mpr ⟨j, hjm, by rw [hjmin]; rfl⟩
  · intro xs i hx
    unfold normalize_salaries
    rw [List.getElem?_map, hx]
    rfl

/-- Witness for load_data_null_salary_flow at the concrete row naRow. -/
theorem load_data_null_salary_flow_witness :
    ∃ j ∈ load_data [naRow], j.required_skills = "python, sql" ∧
      j.salary_range = "Competitive" ∧ j.salary_min = none :=
  (load_data_null_salary_flow [naRow] naRow "python, sql" "Competitive"
    (List.mem_singleton.mpr rfl) rfl rfl (by decide)).1

/-- C2 counterexample: on the all-equal present column [40000, 40000] the
normalization returns NaN (none) for every entry, not the constant 1/2:
the code performs the division 0/0 instead of mapping the degenerate case
to a fixed constant. -/
theorem normalize_degenerate_counterexample :
    normalize_salaries [some 40000, some 40000] = [none, none] ∧
    normalize_salaries [some 40000, some 40000] ≠
      [some (1 / 2 : ℚ), some (1 / 2 : ℚ)] := by
  have h : normalize_salaries [some 40000, some 40000] = [none, none] := by
    simp [normalize_salaries, someValues, listMin, listMax, nanSub, nanDiv,
      qmin, qmax]
  exact ⟨h, by rw [h]; simp⟩

/-- C2 amended: for every non-empty salary column of present values whose
maximum equals its minimum (all equal, or a single value), the denominator
of the min-max scaling is zero and every normalized value is the float NaN
(none) produced by 0/0 — no value is mapped to 0.5 and no exception is
raised. -/
theorem normalize_degenerate_all_nan (xs : List ℚ) (hne : xs ≠ [])
    (heq : listMax xs = listMin xs) :
    normalize_salaries (xs.map some) = xs.map (fun _ => none) := by
  cases xs with
  | nil => exact absurd rfl hne
  | cons v vs =>
    have hsv : someValues ((v :: vs).map some) = v :: vs := by
      simp [someValues]
    unfold normalize_salaries
    rw [hsv, heq]
    simp only [List.map_map]
    refine List.map_congr_left (fun u _ => ?_)
    simp [listMin, nanSub, nanDiv]

/-- Witness for normalize_degenerate_all_nan on the column [40000, 40000]. -/
theorem normalize_degenerate_all_nan_witness :
    normalize_salaries ([(40000 : ℚ), 40000].map some) =
      [(40000 : ℚ), 40000].map (fun _ => none) :=
  normalize_degenerate_all_nan [40000, 40000] (by simp)
    (by simp [listMax, listMin, qmin, qmax])

/-! ## CorpusVectorizer (recommendation.py lines 74-84)

TfidfVectorizer(stop_words = english).fit and .transform, and
cosine_similarity.  The default analyzer lowercases the text and takes the
maximal word-character runs of length at least two as tokens; the fitted
vocabulary is the sorted set of corpus tokens minus the stop words.  The
transform of a text assigns coordinate i the term count of vocabulary word
i times that word's idf weight.  Two library details are abstracted:

- the idf weight ln((1+n)/(1+df)) + 1 is transcendental, so the weighting
  is a parameter (idf : number of docs -> document frequency -> real) and
  every theorem quantifies over it, asking only the nonnegativity that the
  concrete weight satisfies (its log argument is at least 1);
- the transformer's row L2-normalization is omitted: cosine similarity is
  scale invariant and maps zero rows to zero score, so the composed
  score is unchanged (cosine_similarity renormalizes anyway);
- word characters follow the ASCII reading of the regex class, and the
  stop-word list is likewise a parameter: no claim depends on the
  concrete 318 English words of the library frozenset. -/

/-- A word character of the token pattern: alphanumeric or underscore. -/
def isWordChar (c : Char) : Bool := c.isAlphanum || c = '_'

/-- Scanner for word tokens, same shape as digitRunsAux. -/
def wordRunsAux : List Char → List Char → List (List Char)
  | [], acc => if acc.isEmpty then [] else [acc.reverse]
  | c :: rest, acc =>
    if isWordChar c then
      wordRunsAux rest (c :: acc)
    else if acc.isEmpty then
      wordRunsAux rest []
    else
      acc.reverse :: wordRunsAux rest []

/-- The default sklearn analyzer: lowercase, then the maximal runs of word
characters of length at least two, in order. -/
def sktokenize (s : String) : List String :=
  ((wordRunsAux (s.data.map Char.toLower) []).filter (fun r => 2 ≤ r.length)).map
    (fun cs => ⟨cs⟩)

/-- Lexicographic (code point) order on character lists: the comparison
Python uses between strings when sorting the vocabulary. -/
def charListLt : List Char → List Char → Bool
  | [], [] => false
  | [], _ :: _ => true
  | _ :: _, [] => false
  | a :: as, b :: bs =>
    if a < b then true else if b < a then false else charListLt as bs

/-- Lexicographic order on strings. -/
def strLt (s t : String) : Bool := charListLt s.data t.data

/-- Insert a word into a sorted duplicate-free word list. -/
def insertWord (s : String) : List String → List String
  | [] => [s]
  | t :: ts =>
    if s = t then t :: ts
    else if strLt s t then s :: t :: ts
    else t :: insertWord s ts

/-- The fitted vocabulary: every token of every corpus document, stop words
removed, as a sorted duplicate-free list (sklearn sorts the vocabulary). -/
def vocabFit (stop : List String) (docs : List String) : List String :=
  ((docs.map sktokenize).flatten.filter (fun t => ¬ t ∈ stop)).foldl
    (fun v t => insertWord t v) []

/-- Document frequency of a term over the fitted corpus. -/
def docFreq (docs : List String) (t : String) : ℕ :=
  (docs.filter (fun d => t ∈ sktokenize d)).length

/-- The transform of one text in the fitted space: coordinate i is the
term count of vocabulary word i in the text, times the idf weight of that
word; coordinates beyond the vocabulary are 0. -/
noncomputable def tfidfEmbed (stop : List String) (idf : ℕ → ℕ → ℝ)
    (corpus : List String) (text : String) : ℕ → ℝ :=
  fun i =>
    match (vocabFit stop corpus)[i]? with
    | some t => ((sktokenize text).count t : ℝ) * idf corpus.length (docFreq corpus t)
    | none => 0

/-- Dot product of two embedded vectors over the first m coordinates. -/
noncomputable def dotProd (m : ℕ) (u v : ℕ → ℝ) : ℝ :=
  ∑ i ∈ Finset.range m, u i * v i

/-- Squared euclidean norm over the first m coordinates. -/
noncomputable def sqNorm (m : ℕ) (u : ℕ → ℝ) : ℝ :=
  ∑ i ∈ Finset.range m, u i ^ 2

/-- The norm guard of sklearn normalize: a zero norm is replaced by 1, so
zero vectors pass through unscaled instead of faulting. -/
noncomputable def safeNorm (m : ℕ) (u : ℕ → ℝ) : ℝ :=
  if Real.sqrt (sqNorm m u) = 0 then 1 else Real.sqrt (sqNorm m u)

/-- cosine_similarity of two vectors, with the zero-norm guard. -/
noncomputable def cosineSim (m : ℕ) (u v : ℕ → ℝ) : ℝ :=
  dotProd m u v / (safeNorm m u * safeNorm m v)

/-- skill_scores (recommendation.py lines 82-84): transform the documents
and the query in the fitted space and take the cosine of the query against
each document, in document order.  The fitted corpus and the transformed
document set are separate arguments because the page fits on the full
corpus but transforms the filtered one. -/
noncomputable def skill_scores (stop : List String) (idf : ℕ → ℕ → ℝ)
    (corpus docs : List String) (query : String) : List ℝ :=
  docs.map (fun d =>
    cosineSim (vocabFit stop corpus).length
      (tfidfEmbed stop idf corpus query) (tfidfEmbed stop idf corpus d))

/-! ## The filtering and fitting of recommendation_page (lines 174-181) -/

/-- The location/experience filtering of recommendation_page (lines
174-178): a none location models the All sentinel, an empty level list
models no experience filter. -/
def filterJobs (jobs : List Job) (loc : Option String) (exps : List String) :
    List Job :=
  let f1 := match loc with
    | some l => jobs.filter (fun j => j.location = l)
    | none => jobs
  match exps with
  | [] => f1
  | _ :: _ => f1.filter (fun j => exps.contains j.experience_level)

/-- The ordered skill texts of a frame. -/
def corpusOf (jobs : List Job) : List String :=
  jobs.map (fun j => j.required_skills)

/-- The corpus the scoring pass actually fits on: recommendation_page line
180 calls get_vectorizer(df) on the full loaded frame, so the fit ignores
both filters (the two filter arguments are dead here exactly as in the
code). -/
def pageFitCorpus (jobs : List Job) (loc : Option String) (exps : List String) :
    List String :=
  corpusOf jobs

/-- The corpus the spec prescribes fitting on: the candidate set after
location and experience filtering.  (Stated from the spec for comparison
with pageFitCorpus.) -/
def specFitCorpus (jobs : List Job) (loc : Option String) (exps : List String) :
    List String :=
  corpusOf (filterJobs jobs loc exps)

/-! ## Cosine similarity facts -/

theorem sqNorm_nonneg (m : ℕ) (u : ℕ → ℝ) : 0 ≤ sqNorm m u :=
  Finset.sum_nonneg fun i _ => sq_nonneg (u i)

theorem safeNorm_pos (m : ℕ) (u : ℕ → ℝ) : 0 < safeNorm m u := by
  unfold safeNorm
  split
  · norm_num
  · rename_i h
    exact lt_of_le_of_ne (Real.sqrt_nonneg _) (Ne.symm h)

theorem sqrt_sqNorm_le_safeNorm (m : ℕ) (u : ℕ → ℝ) :
    Real.sqrt (sqNorm m u) ≤ safeNorm m u := by
  unfold safeNorm
  split
  · rename_i h; rw [h]; norm_num
  · exact le_refl _

theorem dotProd_le_safeNorm_mul (m : ℕ) (u v : ℕ → ℝ) :
    dotProd m u v ≤ safeNorm m u * safeNorm m v := by
  calc dotProd m u v ≤ Real.sqrt (sqNorm m u) * Real.sqrt (sqNorm m v) :=
        Real.sum_mul_le_sqrt_mul_sqrt _ _ _
    _ ≤ safeNorm m u * safeNorm m v :=
        mul_le_mul (sqrt_sqNorm_le_safeNorm m u) (sqrt_sqNorm_le_safeNorm m v)
          (Real.sqrt_nonneg _) (safeNorm_pos m u).le

theorem cosineSim_le_one (m : ℕ) (u v : ℕ → ℝ) : cosineSim m u v ≤ 1 := by
  unfold cosineSim
  rw [div_le_one (mul_pos (safeNorm_pos m u) (safeNorm_pos m v))]
  exact dotProd_le_safeNorm_mul m u v

theorem cosineSim_nonneg (m : ℕ) (u v : ℕ → ℝ) (hu : ∀ i, 0 ≤ u i)
    (hv : ∀ i, 0 ≤ v i) : 0 ≤ cosineSim m u v :=
  div_nonneg (Finset.sum_nonneg fun i _ => mul_nonneg (hu i) (hv i))
    (mul_pos (safeNorm_pos m u) (safeNorm_pos m v)).le

theorem apply_eq_zero_of_sqNorm_eq_zero (m : ℕ) (u : ℕ → ℝ)
    (h : sqNorm m u = 0) (i : ℕ) (him : i < m) : u i = 0 := by
  have := (Finset.sum_eq_zero_iff_of_nonneg
    (fun j _ => sq_nonneg (u j))).mp h i (Finset.mem_range.mpr him)
  have h2 : (2 : ℕ) ≠ 0 := by norm_num
  exact (pow_eq_zero_iff h2).mp this

theorem cosineSim_zero_left (m : ℕ) (u v : ℕ → ℝ) (h : sqNorm m u = 0) :
    cosineSim m u v = 0 := by
  unfold cosineSim
  have hd : dotProd m u v = 0 :=
    Finset.sum_eq_zero fun i hi => by
      rw [apply_eq_zero_of_sqNorm_eq_zero m u h i (Finset.mem_range.mp hi),
        zero_mul]
  rw [hd, zero_div]

theorem cosineSim_self (m : ℕ) (u : ℕ → ℝ) (h : sqNorm m u ≠ 0) :
    cosineSim m u u = 1 := by
  have hd : dotProd m u u = sqNorm m u :=
    Finset.sum_congr rfl fun i _ => (sq (u i)).symm
  have hs : Real.sqrt (sqNorm m u) ≠ 0 := by
    intro h0
    exact h ((Real.sqrt_eq_zero (sqNorm_nonneg m u)).mp h0)
  unfold cosineSim safeNorm
  rw [if_neg hs, hd, Real.mul_self_sqrt (sqNorm_nonneg m u)]
  exact div_self h

theorem tfidfEmbed_nonneg (stop : List String) (idf : ℕ → ℕ → ℝ)
    (hidf : ∀ a b, 0 ≤ idf a b) (corpus : List String) (text : String)
    (i : ℕ) : 0 ≤ tfidfEmbed stop idf corpus text i := by
  unfold tfidfEmbed
  cases h : (vocabFit stop corpus)[i]? with
  | none => exact le_refl 0
  | some t => exact mul_nonneg (Nat.cast_nonneg _) (hidf _ _)

/-- C7: for every query and document set (and any nonnegative idf
weighting), the similarity step returns one score per document, in
document order; each score is the cosine of the query embedding against
that document's embedding; every score lies in [0,1]; a zero query vector
gives every document score 0, and a zero document vector gives that
document score 0 — the zero-norm guard means no division by zero ever
occurs. -/
theorem skill_scores_safe (stop : List String) (idf : ℕ → ℕ → ℝ)
    (hidf : ∀ a b, 0 ≤ idf a b) (corpus docs : List String) (query : String) :
    (skill_scores stop idf corpus docs query).length = docs.length ∧
    (∀ (i : ℕ) (d : String), docs[i]? = some d →
      (skill_scores stop idf corpus docs query)[i]? =
        some (cosineSim (vocabFit stop corpus).length
          (tfidfEmbed stop idf corpus query) (tfidfEmbed stop idf corpus d))) ∧
    (∀ s ∈ skill_scores stop idf corpus docs query, 0 ≤ s ∧ s ≤ 1) ∧
    (sqNorm (vocabFit stop corpus).length (tfidfEmbed stop idf corpus query) =
        0 →
      ∀ s ∈ skill_scores stop idf corpus docs query, s = 0) ∧
    (∀ (i : ℕ) (d : String), docs[i]? = some d →
      sqNorm (vocabFit stop corpus).length (tfidfEmbed stop idf corpus d) =
        0 →
      (skill_scores stop idf corpus docs query)[i]? = some 0) := by
  refine ⟨List.length_map _ _, ?_, ?_, ?_, ?_⟩
  · intro i d hd
    unfold skill_scores
    rw [List.getElem?_map, hd]
    rfl
  · intro s hs
    obtain ⟨d, _, rfl⟩ := List.mem_map.mp hs
    exact ⟨cosineSim_nonneg _ _ _ (tfidfEmbed_nonneg stop idf hidf corpus query)
        (tfidfEmbed_nonneg stop idf hidf corpus d),
      cosineSim_le_one _ _ _⟩
  · intro h0 s hs
    obtain ⟨d, _, rfl⟩ := List.mem_map.mp hs
    exact cosineSim_zero_left _ _ _ h0
  · intro i d hd h0
    unfold skill_scores
    rw [List.getElem?_map, hd]
    have hc : cosineSim (vocabFit stop corpus).length
        (tfidfEmbed stop idf corpus query) (tfidfEmbed stop idf corpus d) = 0 := by
      unfold cosineSim
      have hdp : dotProd (vocabFit stop corpus).length
          (tfidfEmbed stop idf corpus query) (tfidfEmbed stop idf corpus d) = 0 :=
        Finset.sum_eq_zero fun j hj => by
          rw [apply_eq_zero_of_sqNorm_eq_zero _ _ h0 j (Finset.mem_range.mp hj),
            mul_zero]
      rw [hdp, zero_div]
    exact congrArg some hc

/-- Witness for skill_scores_safe: the constant idf weighting 1 is
nonnegative, and on a one-document corpus the pass yields one score. -/
theorem skill_scores_safe_witness :
    (∀ a b : ℕ, (0 : ℝ) ≤ (fun _ _ => (1 : ℝ)) a b) ∧
    (skill_scores [] (fun _ _ => (1 : ℝ)) ["python"] ["python"] "python").length =
      (["python"] : List String).length :=
  ⟨fun _ _ => by norm_num,
    (skill_scores_safe [] (fun _ _ => (1 : ℝ)) (fun _ _ => by norm_num)
      ["python"] ["python"] "python").1⟩

/-- C8: if the query text is a document's skill text, that document's
skill score is greatest: equal texts embed to the same vector, whose self
cosine is 1 when the vector is nonzero (and every score is at most 1), and
0 when it is zero (in which case every score is exactly 0). -/
theorem skill_scores_reflexive_max (stop : List String) (idf : ℕ → ℕ → ℝ)
    (hidf : ∀ a b, 0 ≤ idf a b) (corpus docs : List String) (query : String)
    (i : ℕ) (d : String) (hd : docs[i]? = some d) (hq : query = d) :
    ∃ si, (skill_scores stop idf corpus docs query)[i]? = some si ∧
      ∀ s ∈ skill_scores stop idf corpus docs query, s ≤ si := by
  subst hq
  refine ⟨cosineSim (vocabFit stop corpus).length
      (tfidfEmbed stop idf corpus query) (tfidfEmbed stop idf corpus query),
    ?_, ?_⟩
  · unfold skill_scores
    rw [List.getElem?_map, hd]
    rfl
  · intro s hs
    obtain ⟨d2, _, rfl⟩ := List.mem_map.mp hs
    by_cases h0 : sqNorm (vocabFit stop corpus).length
        (tfidfEmbed stop idf corpus query) = 0
    · rw [cosineSim_zero_left _ _ _ h0, cosineSim_zero_left _ _ _ h0]
    · rw [cosineSim_self _ _ h0]
      exact cosineSim_le_one _ _ _

/-- Witness for skill_scores_reflexive_max: query equal to the single
document of a one-document set. -/
theorem skill_scores_reflexive_max_witness :
    (["python"] : List String)[0]? = some "python" ∧
    ∃ si, (skill_scores [] (fun _ _ => (1 : ℝ)) ["python"] ["python"]
        "python")[0]? = some si ∧
      ∀ s ∈ skill_scores [] (fun _ _ => (1 : ℝ)) ["python"] ["python"]
          "python", s ≤ si :=
  ⟨rfl, skill_scores_reflexive_max [] (fun _ _ => (1 : ℝ))
    (fun _ _ => by norm_num) ["python"] ["python"] "python" 0 "python" rfl rfl⟩

/-- The two concrete loaded rows used to refute C4. -/
def jobA : Job :=
  { job_title := "Backend Dev", company := "Acme", location := "London",
    experience_level := "Mid", required_skills := "python",
    salary_range := "40000", salary_min := some 40000,
    salary_max := some 40000 }

/-- Second concrete row, different location and disjoint skills. -/
def jobB : Job :=
  { job_title := "Java Dev", company := "Beta", location := "Leeds",
    experience_level := "Senior", required_skills := "java",
    salary_range := "50000", salary_min := some 50000,
    salary_max := some 50000 }

/-- C4 counterexample: with the London filter the candidate corpus shrinks
to jobA alone, yet the vector space used by the pass is fitted on the full
corpus: its vocabulary still contains java, which no filtered document
holds, so it is not a fit of the filtered corpus. -/
theorem vectorizer_fit_counterexample :
    filterJobs [jobA, jobB] (some "London") [] ≠ [jobA, jobB] ∧
    vocabFit [] (pageFitCorpus [jobA, jobB] (some "London") []) =
      ["java", "python"] ∧
    vocabFit [] (specFitCorpus [jobA, jobB] (some "London") []) = ["python"] ∧
    vocabFit [] (pageFitCorpus [jobA, jobB] (some "London") []) ≠
      vocabFit [] (specFitCorpus [jobA, jobB] (some "London") []) :=
  ⟨by decide, by decide, by decide, by decide⟩

/-- C4 amended: the vector space of a scoring pass is always fitted on the
full loaded corpus, whatever the filters select; query-time embedding never
grows the vocabulary: every coordinate beyond the fitted vocabulary is 0
for every query. -/
theorem vectorizer_fit_full (stop : List String) (jobs : List Job)
    (loc : Option String) (exps : List String) :
    pageFitCorpus jobs loc exps = corpusOf jobs ∧
    (∀ (idf : ℕ → ℕ → ℝ) (query : String) (i : ℕ),
      (vocabFit stop (corpusOf jobs)).length ≤ i →
      tfidfEmbed stop idf (corpusOf jobs) query i = 0) := by
  refine ⟨rfl, ?_⟩
  intro idf query i hi
  unfold tfidfEmbed
  rw [List.getElem?_eq_none hi]

/-- Witness for vectorizer_fit_full: coordinate 5 of a one-word vocabulary
embedding is 0. -/
theorem vectorizer_fit_full_witness :
    (vocabFit [] (corpusOf [jobA])).length ≤ 5 ∧
    tfidfEmbed [] (fun _ _ => (1 : ℝ)) (corpusOf [jobA]) "java" 5 = 0 :=
  ⟨by decide,
    (vectorizer_fit_full [] [jobA] none []).2 (fun _ _ => (1 : ℝ)) "java" 5
      (by decide)⟩

/-! ## WeightedRanker: df.sort_values(match_score, ascending=False)
(recommendation.py line 94)

pandas sorts a single column through nargsort, whose default kind is the
numpy quicksort — an introsort: median-of-three quicksort partitioning
down to segments of at most 16 elements, which are insertion sorted, with
a heapsort fallback once the partition budget 2*floor(log2 n) is spent.
The argsort variants of these routines (aquicksort_, aheapsort_ of
npysort) permute an index array tosort while comparing through the value
array; the model below is a step-for-step translation, generic in the
element type and its strict comparison, with explicit fuel for the loops
(the fuel bounds are generous and never reached; reads out of range fall
back to defaults that in-range invariants keep inert).

For a descending sort of a float column, nargsort splits off the NaN
positions, reverses the remaining values AND their indices, argsorts
ascending, maps back through the reversed indices, reverses the result,
and appends the NaN positions at the end (na_position last). -/

section NpSort

variable {α : Type} [Inhabited α] (lt : α → α → Bool)

/-- The value compared at tosort position p: vl[*p]. -/
def keyAt (v : List α) (t : List ℕ) (p : ℕ) : α :=
  v.getD (t.getD p 0) default

/-- INTP_SWAP of two tosort positions. -/
def lswap (t : List ℕ) (i j : ℕ) : List ℕ :=
  let vi := t.getD i 0
  let vj := t.getD j 0
  (t.set i vj).set j vi

/-- do ++pi; while (LT(vl[*pi], vp)):  the first position at or after i
whose value is not below the pivot. -/
def scanUp (v : List α) (t : List ℕ) (vp : α) : ℕ → ℕ → ℕ
  | i, 0 => i
  | i, fuel+1 => if lt (keyAt v t i) vp then scanUp v t vp (i+1) fuel else i

/-- do --pj; while (LT(vp, vl[*pj])):  the first position at or below j
whose value is not above the pivot. -/
def scanDown (v : List α) (t : List ℕ) (vp : α) : ℕ → ℕ → ℕ
  | j, 0 => j
  | j, fuel+1 => if lt vp (keyAt v t j) then scanDown v t vp (j-1) fuel else j

/-- The partition scan loop of aquicksort_: returns the array and the
crossing point pi after the final pivot swap is still to be done. -/
def partLoop (v : List α) (t : List ℕ) (vp : α) : ℕ → ℕ → ℕ → List ℕ × ℕ
  | _pi, _pj, 0 => (t, _pi)
  | pi, pj, fuel+1 =>
    let pi2 := scanUp lt v t vp (pi+1) t.length
    let pj2 := scanDown lt v t vp (pj-1) t.length
    if pi2 ≥ pj2 then (t, pi2)
    else partLoop v (lswap t pi2 pj2) vp pi2 pj2 fuel

/-- One partition of the segment [pl, pr]: median-of-three pivot selection,
pivot parked at pr-1, Hoare-style scan, pivot swapped to the crossing
point. -/
def partitionSeg (v : List α) (t : List ℕ) (pl pr : ℕ) : List ℕ × ℕ :=
  let pm := pl + (pr - pl) / 2
  let t1 := if lt (keyAt v t pm) (keyAt v t pl) then lswap t pm pl else t
  let t2 := if lt (keyAt v t1 pr) (keyAt v t1 pm) then lswap t1 pr pm else t1
  let t3 := if lt (keyAt v t2 pm) (keyAt v t2 pl) then lswap t2 pm pl else t2
  let vp := keyAt v t3 pm
  let t4 := lswap t3 pm (pr - 1)
  let s := partLoop lt v t4 vp pl (pr - 1) t4.length
  (lswap s.1 s.2 (pr - 1), s.2)

/-- The shift loop of the insertion sort: move greater values right until
the held index vi (of value vp) can be planted at pj. -/
def insertInner (v : List α) (t : List ℕ) (vp : α) (vi : ℕ) :
    ℕ → ℕ → ℕ → List ℕ
  | pj, _pl, 0 => t.set pj vi
  | pj, pl, fuel+1 =>
    if pl < pj ∧ lt vp (keyAt v t (pj-1)) then
      insertInner v (t.set pj (t.getD (pj-1) 0)) vp vi (pj-1) pl fuel
    else
      t.set pj vi

/-- The pi sweep of the insertion sort of segment [pl, pr]. -/
def insertionSegAux (v : List α) : List ℕ → ℕ → ℕ → ℕ → ℕ → List ℕ
  | t, _pl, _pr, _pi, 0 => t
  | t, pl, pr, pi, fuel+1 =>
    if pi ≤ pr then
      let vi := t.getD pi 0
      let vp := v.getD vi default
      insertionSegAux v (insertInner lt v t vp vi pi pl t.length) pl pr (pi+1)
        fuel
    else t

/-- Insertion sort of the segment [pl, pr] (the terminal small-segment
sort of aquicksort_). -/
def insertionSeg (v : List α) (t : List ℕ) (pl pr : ℕ) : List ℕ :=
  insertionSegAux lt v t pl pr (pl+1) (t.length + 1)

/-- The sift loop shared by both phases of aheapsort_: one-based heap
positions within the segment starting at base b (a[k] is t[b+k-1]);
returns the array and the hole position i where the caller plants tmp. -/
def siftLoop (v : List α) (b : ℕ) (tmp : ℕ) (n : ℕ) :
    List ℕ → ℕ → ℕ → ℕ → List ℕ × ℕ
  | t, i, _j, 0 => (t, i)
  | t, i, j, fuel+1 =>
    if j ≤ n then
      let j2 := if j < n ∧ lt (keyAt v t (b+j-1)) (keyAt v t (b+j)) then j+1
        else j
      if lt (v.getD tmp default) (keyAt v t (b+j2-1)) then
        siftLoop v b tmp n (t.set (b+i-1) (t.getD (b+j2-1) 0)) j2 (j2+j2) fuel
      else (t, i)
    else (t, i)

/-- The heapify phase: sift roots l = n/2 down to 1. -/
def heapBuild (v : List α) (b n : ℕ) : List ℕ → ℕ → List ℕ
  | t, 0 => t
  | t, l+1 =>
    let tmp := t.getD (b+l) 0
    let s := siftLoop lt v b tmp n t (l+1) ((l+1)+(l+1)) (t.length + 1)
    heapBuild v b n (s.1.set (b+s.2-1) tmp) l

/-- The extraction phase: repeatedly swap the root to the end of the
shrinking heap and sift the displaced last element down. -/
def heapExtract (v : List α) (b : ℕ) : List ℕ → ℕ → List ℕ
  | t, 0 => t
  | t, 1 => t
  | t, n+2 =>
    let tmp := t.getD (b+n+1) 0
    let t1 := t.set (b+n+1) (t.getD b 0)
    let s := siftLoop lt v b tmp (n+1) t1 1 2 (t1.length + 1)
    heapExtract v b (s.1.set (b+s.2-1) tmp) (n+1)

/-- aheapsort_ of the segment [pl, pr]. -/
def heapsortSeg (v : List α) (t : List ℕ) (pl pr : ℕ) : List ℕ :=
  let n := pr + 1 - pl
  heapExtract lt v pl (heapBuild lt v pl n t (n/2)) n

/-- The driving loop of aquicksort_: partition segments longer than 16
(pr - pl > 15), pushing the larger half, until the depth budget runs out
(then heapsort the segment), insertion sort the short segments, pop until
the stack is empty.  The depth budget test models the post-decrement of
depth_limit-- < 0: every test costs one unit, whichever branch is taken. -/
def qsortLoop (v : List α) :
    List ℕ → List (ℕ × ℕ) → ℕ → ℕ → ℤ → ℕ → List ℕ
  | t, _stack, _pl, _pr, _depth, 0 => t
  | t, stack, pl, pr, depth, fuel+1 =>
    if pr - pl > 15 then
      if depth < 0 then
        let t2 := heapsortSeg lt v t pl pr
        match stack with
        | [] => t2
        | (l, r) :: rest => qsortLoop v t2 rest l r (depth - 1) fuel
      else
        let s := partitionSeg lt v t pl pr
        if s.2 - pl < pr - s.2 then
          qsortLoop v s.1 ((s.2 + 1, pr) :: stack) pl (s.2 - 1) (depth - 1)
            fuel
        else
          qsortLoop v s.1 ((pl, s.2 - 1) :: stack) (s.2 + 1) pr (depth - 1)
            fuel
    else
      let t2 := insertionSeg lt v t pl pr
      match stack with
      | [] => t2
      | (l, r) :: rest => qsortLoop v t2 rest l r depth fuel

/-- np.argsort with the default quicksort kind: run the introsort driver
over tosort = range n with depth budget 2*floor(log2 n). -/
def npArgsortQuick (v : List α) : List ℕ :=
  qsortLoop lt v (List.range v.length) [] 0 (v.length - 1)
    (2 * (Nat.log2 v.length : ℤ)) (2 * v.length + 2)

/-- pandas nargsort for a descending sort with na_position last: NaN
(none) positions are split off and appended at the end; the present values
and their positions are reversed, argsorted ascending, mapped back, and
the indexer reversed. -/
def nargsortDesc (keys : List (Option α)) : List ℕ :=
  let idx := List.range keys.length
  let nonNanIdx := idx.filter (fun i => (keys.getD i none).isSome)
  let nanIdx := idx.filter (fun i => !(keys.getD i none).isSome)
  let revIdx := nonNanIdx.reverse
  let revVals := revIdx.map (fun i => (keys.getD i none).getD default)
  let p := npArgsortQuick lt revVals
  (p.map (fun k => revIdx.getD k 0)).reverse ++ nanIdx

end NpSort

/-- df.take of a row indexer. -/
def applyIndexer {β : Type} [Inhabited β] (rows : List β) (indexer : List ℕ) :
    List β :=
  indexer.map (fun i => rows.getD i default)

/-- The strict comparison of rational keys (float compare of the scores). -/
def ratLt (a b : ℚ) : Bool := decide (a < b)

/-- The match score of one item of given skill and salary scores
(recommendation.py lines 91-92). -/
def matchScore (ws wa : ℚ) (p : ℚ × ℚ) : ℚ := ws * p.1 + wa * p.2

/-- The ranker on already-computed (skill_score, salary_score) pairs:
compute the weighted match score of each item and return the rows ordered
by df.sort_values(match_score, ascending=False). -/
def rank (ws wa : ℚ) (items : List (ℚ × ℚ)) : List (ℚ × ℚ) :=
  applyIndexer items (nargsortDesc ratLt ((items.map (matchScore ws wa)).map some))

/-! ## The scoring pass as a state transformer:
enhanced_recommendations (recommendation.py lines 80-94)

The data frame handed in is modelled as its rows plus the two derived
columns, absent (none) until the pass writes them.  The pass returns the
new state of the frame it was handed — the two column assignments of
lines 87 and 91 mutate that frame in place — together with the sorted copy
of line 94.  The fitted vector space is the fitCorpus argument, a value
the pass only reads. -/

/-- A data frame as the pass sees it: rows plus optional derived columns
(none: the column is absent; entries none: NaN). -/
structure Frame where
  rows : List Job
  salary_score : Option (List (Option ℝ))
  match_score : Option (List (Option ℝ))

/-- Strict comparison of float match scores (classically decided; only
used inside the sorted copy, about which no evaluation claim is made). -/
noncomputable def realLt (a b : ℝ) : Bool := decide (a < b)

/-- df.sort_values(match_score, ascending=False) on a frame whose
match_score column is present: permute rows and columns by the nargsort
indexer of the match_score keys. -/
noncomputable def sortFrame (df : Frame) : Frame :=
  let indexer := nargsortDesc realLt (df.match_score.getD [])
  { rows := applyIndexer df.rows indexer,
    salary_score := df.salary_score.map (fun c => applyIndexer c indexer),
    match_score := df.match_score.map (fun c => applyIndexer c indexer) }

/-- enhanced_recommendations: compute the skill scores (pass-local),
write the normalized salary column and the weighted match column into the
frame handed in, and return (new state of that frame, sorted copy). -/
noncomputable def enhanced_recommendations (stop : List String)
    (idf : ℕ → ℕ → ℝ) (user_skills : String) (df : Frame)
    (fitCorpus : List String) (wSkills wSalary : ℝ) : Frame × Frame :=
  let sk : List ℝ :=
    skill_scores stop idf fitCorpus (corpusOf df.rows) user_skills
  let sal : List (Option ℝ) :=
    (normalize_salaries (salaryColumn df.rows)).map
      (Option.map (fun q : ℚ => (q : ℝ)))
  let ms : List (Option ℝ) :=
    List.zipWith (fun s v => v.map (fun x => wSkills * s + wSalary * x)) sk sal
  let df2 : Frame :=
    { rows := df.rows, salary_score := some sal, match_score := some ms }
  (df2, sortFrame df2)

/-- recommendation_page lines 169-181 around one button press: the page
frame is copied (line 174), filtered, and the pass runs on the filtered
copy with the vectorizer fitted on the full frame; returns (state of the
page frame after the pass, state of the frame handed to the pass, the
sorted result). -/
noncomputable def pageScoringPass (stop : List String) (idf : ℕ → ℕ → ℝ)
    (pageDf : List Job) (loc : Option String) (exps : List String)
    (user_skills : String) (wSkills wSalary : ℝ) :
    List Job × Frame × Frame :=
  let filtered := filterJobs pageDf loc exps
  let out := enhanced_recommendations stop idf user_skills
    { rows := filtered, salary_score := none, match_score := none }
    (pageFitCorpus pageDf loc exps) wSkills wSalary
  (pageDf, out.1, out.2)

/-- The concrete frame used to refute C9. -/
def inputFrame : Frame :=
  { rows := [jobA], salary_score := none, match_score := none }

/-- C9 counterexample: the pass does mutate the frame handed to it — after
the pass the frame carries a salary_score column it did not have before,
so it is not unchanged and the derived scores are not pass-local. -/
theorem enhanced_recommendations_mutates :
    (enhanced_recommendations [] (fun _ _ => (1 : ℝ)) "python" inputFrame
        (corpusOf [jobA]) (7/10) (3/10)).1 ≠ inputFrame ∧
    (enhanced_recommendations [] (fun _ _ => (1 : ℝ)) "python" inputFrame
        (corpusOf [jobA]) (7/10) (3/10)).1.salary_score.isSome = true := by
  constructor
  · intro h
    have h2 := congrArg Frame.salary_score h
    simp [enhanced_recommendations, inputFrame] at h2
  · simp [enhanced_recommendations]

/-- C9 amended: the pass mutates the frame handed to it exactly by writing
the two derived columns — its rows are unchanged and both score columns
are present afterwards — while the page-level frame is untouched (the page
passes a filtered copy) and the fitted vector space, being read-only data
here, is the same corpus before and after. -/
theorem enhanced_recommendations_frame_effect (stop : List String)
    (idf : ℕ → ℕ → ℝ) (pageDf : List Job) (loc : Option String)
    (exps : List String) (user_skills : String) (wSkills wSalary : ℝ) :
    (pageScoringPass stop idf pageDf loc exps user_skills wSkills wSalary).1 =
      pageDf ∧
    (pageScoringPass stop idf pageDf loc exps user_skills wSkills
        wSalary).2.1.rows = filterJobs pageDf loc exps ∧
    (pageScoringPass stop idf pageDf loc exps user_skills wSkills
        wSalary).2.1.salary_score = some
        ((normalize_salaries (salaryColumn (filterJobs pageDf loc exps))).map
          (Option.map (fun q : ℚ => (q : ℝ)))) ∧
    (pageScoringPass stop idf pageDf loc exps user_skills wSkills
        wSalary).2.1.match_score.isSome = true :=
  ⟨rfl, rfl, rfl, rfl⟩

/-! ## Correctness of the modelled sort

The lemmas of this section establish that npArgsortQuick returns a
permutation of range n ordered non-decreasingly through the value array,
and that the nargsortDesc wrapper therefore orders present keys
non-increasingly.  Throughout, t is the tosort index array, read through
getD with default 0; reads stay in bounds wherever the invariants below
hold, so the defaults are inert. -/

section SortProofs

open List

theorem getD_set_self (t : List ℕ) (i x : ℕ) (h : i < t.length) :
    (t.set i x).getD i 0 = x := by
  rw [List.getD_eq_getElem?_getD, List.getElem?_set_eq h]
  rfl

theorem getD_set_ne (t : List ℕ) {i k : ℕ} (x : ℕ) (h : k ≠ i) :
    (t.set i x).getD k 0 = t.getD k 0 := by
  rw [List.getD_eq_getElem?_getD, List.getElem?_set_ne (Ne.symm h),
    ← List.getD_eq_getElem?_getD]

theorem length_lswap (t : List ℕ) (i j : ℕ) :
    (lswap t i j).length = t.length := by
  simp [lswap]

theorem getD_lswap_fst (t : List ℕ) {i j : ℕ} (hi : i < t.length) :
    (lswap t i j).getD i 0 = t.getD j 0 := by
  unfold lswap
  by_cases hij : i = j
  · subst hij
    exact getD_set_self _ _ _ (by simpa using hi)
  · rw [getD_set_ne _ _ hij, getD_set_self _ _ _ hi]

theorem getD_lswap_snd (t : List ℕ) {i j : ℕ} (hj : j < t.length) :
    (lswap t i j).getD j 0 = t.getD i 0 := by
  unfold lswap
  by_cases hij : i = j
  · subst hij
    exact getD_set_self _ _ _ (by simpa using hj)
  · exact getD_set_self _ _ _ (by simpa using hj)

theorem getD_lswap_other (t : List ℕ) {i j k : ℕ} (hki : k ≠ i)
    (hkj : k ≠ j) : (lswap t i j).getD k 0 = t.getD k 0 := by
  unfold lswap
  rw [getD_set_ne _ _ hkj, getD_set_ne _ _ hki]

/-- Decomposition of a list at an in-range position. -/
theorem eq_take_getD_cons_drop (t : List ℕ) {k : ℕ} (h : k < t.length) :
    t = t.take k ++ t.getD k 0 :: t.drop (k+1) := by
  conv_lhs => rw [← List.take_append_drop k t]
  congr 1
  rw [List.getD_eq_getElem?_getD, List.getElem?_eq_getElem h]
  exact (List.getElem_cons_drop t k h).symm

/-- Writing x at position k trades the old entry for x, as multisets. -/
theorem multiset_set (t : List ℕ) (k x : ℕ) (h : k < t.length) :
    (↑(t.set k x) : Multiset ℕ) + {t.getD k 0} = (↑t : Multiset ℕ) + {x} := by
  rw [List.set_eq_take_cons_drop x h]
  conv_rhs => rw [eq_take_getD_cons_drop t h]
  have : ∀ (A D : List ℕ) (a b : ℕ),
      (↑(A ++ a :: D) : Multiset ℕ) + {b} = (↑(A ++ b :: D) : Multiset ℕ) + {a} := by
    intro A D a b
    have h1 : (A ++ a :: D) ++ [b] ~ (A ++ b :: D) ++ [a] := by
      calc (A ++ a :: D) ++ [b] ~ a :: (A ++ D) ++ [b] :=
            (List.perm_middle).append_right _
        _ ~ b :: (A ++ D) ++ [a] := by
            simp only [List.cons_append]
            calc a :: ((A ++ D) ++ [b]) ~ a :: (b :: (A ++ D)) :=
                  List.Perm.cons _ (by simpa using @List.perm_middle ℕ b (A ++ D) [])
              _ ~ b :: (a :: (A ++ D)) := List.Perm.swap _ _ _
              _ ~ b :: ((A ++ D) ++ [a]) :=
                  List.Perm.cons _ (by simpa using (@List.perm_middle ℕ a (A ++ D) []).symm)
        _ ~ (A ++ b :: D) ++ [a] := (List.perm_middle).symm.append_right _
    have h2 := Multiset.coe_eq_coe.mpr h1
    simp only [← Multiset.coe_singleton, ← Multiset.coe_add]
    exact h2
  exact this _ _ _ _

/-- A swap permutes the array. -/
theorem lswap_perm (t : List ℕ) {i j : ℕ} (hi : i < t.length)
    (hj : j < t.length) : (lswap t i j) ~ t := by
  rw [← Multiset.coe_eq_coe]
  show (↑((t.set i (t.getD j 0)).set j (t.getD i 0)) : Multiset ℕ) = ↑t
  have hget : (t.set i (t.getD j 0)).getD j 0 = t.getD j 0 := by
    by_cases hij : i = j
    · subst hij
      exact getD_set_self _ _ _ hi
    · exact getD_set_ne _ _ (Ne.symm hij)
  have h1 := multiset_set t i (t.getD j 0) hi
  have h2 := multiset_set (t.set i (t.getD j 0)) j (t.getD i 0)
    (by simpa using hj)
  rw [hget] at h2
  exact add_right_cancel (h2.trans h1)

/-- The three frame facts every segment routine preserves: length, global
multiset content, and every entry outside [pl, pr]. -/
def SegFrame (t t2 : List ℕ) (pl pr : ℕ) : Prop :=
  t2.length = t.length ∧ (t2 ~ t) ∧
  ∀ k, (k < pl ∨ pr < k) → t2.getD k 0 = t.getD k 0

theorem SegFrame.refl (t : List ℕ) (pl pr : ℕ) : SegFrame t t pl pr :=
  ⟨rfl, List.Perm.refl t, fun _ _ => rfl⟩

theorem SegFrame.trans {t t2 t3 : List ℕ} {pl pr : ℕ}
    (h1 : SegFrame t t2 pl pr) (h2 : SegFrame t2 t3 pl pr) :
    SegFrame t t3 pl pr :=
  ⟨h2.1.trans h1.1, h2.2.1.trans h1.2.1,
    fun k hk => (h2.2.2 k hk).trans (h1.2.2 k hk)⟩

theorem SegFrame.mono {t t2 : List ℕ} {pl pr pl2 pr2 : ℕ}
    (h : SegFrame t t2 pl pr) (hl : pl2 ≤ pl) (hr : pr ≤ pr2) :
    SegFrame t t2 pl2 pr2 :=
  ⟨h.1, h.2.1, fun k hk => h.2.2 k (by omega)⟩

theorem SegFrame.lswap {t : List ℕ} {pl pr i j : ℕ} (hi1 : pl ≤ i)
    (hi2 : i ≤ pr) (hj1 : pl ≤ j) (hj2 : j ≤ pr) (hi : i < t.length)
    (hj : j < t.length) : SegFrame t (ITJobs.lswap t i j) pl pr :=
  ⟨length_lswap t i j, lswap_perm t hi hj,
    fun k hk => getD_lswap_other t (by omega) (by omega)⟩

theorem SegFrame.set {t : List ℕ} {pl pr i : ℕ} (x : ℕ) (hi1 : pl ≤ i)
    (hi2 : i ≤ pr) : (t.set i x).length = t.length ∧
      ∀ k, (k < pl ∨ pr < k) → (t.set i x).getD k 0 = t.getD k 0 :=
  ⟨List.length_set t i x, fun k hk => getD_set_ne t x (by omega)⟩

/-- A list is the map of its reads over its positions. -/
theorem self_eq_map_range (t : List ℕ) :
    t = (List.range t.length).map (fun k => t.getD k 0) := by
  apply List.ext_getElem
  · simp
  · intro i h1 h2
    simp only [List.getElem_map, List.getElem_range]
    rw [List.getD_eq_getElem?_getD, List.getElem?_eq_getElem h1]
    rfl

/-- Membership test for the positions of [pl, pr]. -/
def insideP (pl pr : ℕ) : ℕ → Bool :=
  fun k => decide (pl ≤ k) && decide (k ≤ pr)

/-- The reads of the positions inside [pl, pr]. -/
def insideVals (t : List ℕ) (pl pr : ℕ) : List ℕ :=
  ((List.range t.length).filter (insideP pl pr)).map (fun k => t.getD k 0)

/-- Under a segment frame, the multiset of reads inside the segment is
preserved, so every value inside the new segment sits somewhere inside the
old one. -/
theorem segValue_mem {t t2 : List ℕ} {pl pr : ℕ} (hf : SegFrame t t2 pl pr)
    {p : ℕ} (hp1 : pl ≤ p) (hp2 : p ≤ pr) (hpn : p < t2.length) :
    ∃ q, pl ≤ q ∧ q ≤ pr ∧ q < t.length ∧ t.getD q 0 = t2.getD p 0 := by
  have hlen : t2.length = t.length := hf.1
  have hsplit : ∀ (u : List ℕ),
      (↑u : Multiset ℕ) = ↑(insideVals u pl pr) +
        ↑(((List.range u.length).filter
          (fun k => !(insideP pl pr k))).map (fun k => u.getD k 0)) := by
    intro u
    have hperm : ((List.range u.length).filter (insideP pl pr) ++
        (List.range u.length).filter (fun k => !(insideP pl pr k))) ~
          List.range u.length :=
      List.filter_append_perm (insideP pl pr) (List.range u.length)
    have hc := (hperm.map (fun k => u.getD k 0)).symm
    rw [← Multiset.coe_eq_coe] at hc
    calc (↑u : Multiset ℕ)
        = ↑((List.range u.length).map (fun k => u.getD k 0)) := by
          conv_lhs => rw [self_eq_map_range u]
      _ = _ := by rw [hc, List.map_append, Multiset.coe_add]; rfl
  have houts : ((List.range t2.length).filter
      (fun k => !(insideP pl pr k))).map (fun k => t2.getD k 0) =
      ((List.range t.length).filter
      (fun k => !(insideP pl pr k))).map (fun k => t.getD k 0) := by
    rw [hlen]
    refine List.map_congr_left ?_
    intro k hk
    have hk2 := List.of_mem_filter hk
    simp only [insideP, Bool.not_eq_true', Bool.and_eq_false_iff,
      decide_eq_false_iff_not, not_le] at hk2
    refine hf.2.2 k ?_
    rcases hk2 with h | h
    · exact Or.inl h
    · exact Or.inr h
  have hperm2 : (↑t2 : Multiset ℕ) = ↑t := Multiset.coe_eq_coe.mpr hf.2.1
  have h1 := hsplit t2
  have h2 := hsplit t
  rw [houts] at h1
  rw [hperm2, h2] at h1
  have hinside : (↑(insideVals t2 pl pr) : Multiset ℕ) = ↑(insideVals t pl pr) :=
    add_right_cancel (h1.symm)
  have hmem : t2.getD p 0 ∈ insideVals t2 pl pr := by
    refine List.mem_map.mpr ⟨p, ?_, rfl⟩
    refine List.mem_filter.mpr ⟨List.mem_range.mpr hpn, ?_⟩
    simp only [insideP, Bool.and_eq_true, decide_eq_true_eq]
    exact ⟨hp1, hp2⟩
  have hmem2 : t2.getD p 0 ∈ insideVals t pl pr := by
    have := Multiset.coe_eq_coe.mp hinside
    exact this.mem_iff.mp hmem
  obtain ⟨q, hq, hqv⟩ := List.mem_map.mp hmem2
  have hq2 := List.mem_filter.mp hq
  have hq3 : pl ≤ q ∧ q ≤ pr := by simpa [insideP] using hq2.2
  exact ⟨q, hq3.1, hq3.2, List.mem_range.mp hq2.1, hqv⟩

theorem keyAt_lswap_fst {α : Type} [Inhabited α] (v : List α) (t : List ℕ)
    {i j : ℕ} (hi : i < t.length) : keyAt v (lswap t i j) i = keyAt v t j := by
  unfold keyAt
  rw [getD_lswap_fst t hi]

theorem keyAt_lswap_snd {α : Type} [Inhabited α] (v : List α) (t : List ℕ)
    {i j : ℕ} (hj : j < t.length) : keyAt v (lswap t i j) j = keyAt v t i := by
  unfold keyAt
  rw [getD_lswap_snd t hj]

theorem keyAt_lswap_other {α : Type} [Inhabited α] (v : List α) (t : List ℕ)
    {i j k : ℕ} (h1 : k ≠ i) (h2 : k ≠ j) :
    keyAt v (lswap t i j) k = keyAt v t k := by
  unfold keyAt
  rw [getD_lswap_other t h1 h2]

theorem keyAt_eq_of_getD_eq {α : Type} [Inhabited α] (v : List α)
    {t t2 : List ℕ} {k : ℕ} (h : t2.getD k 0 = t.getD k 0) :
    keyAt v t2 k = keyAt v t k := by
  unfold keyAt
  rw [h]

/-! ### The scan loops -/

theorem scanUp_spec {α : Type} [Inhabited α] [LinearOrder α]
    {lt : α → α → Bool} (hlt : ∀ a b, lt a b = true ↔ a < b) (v : List α)
    (t : List ℕ) (vp : α) :
    ∀ (fuel i stop : ℕ), i ≤ stop → stop - i < fuel →
      ¬ keyAt v t stop < vp →
      i ≤ scanUp lt v t vp i fuel ∧ scanUp lt v t vp i fuel ≤ stop ∧
      ¬ keyAt v t (scanUp lt v t vp i fuel) < vp ∧
      ∀ k, i ≤ k → k < scanUp lt v t vp i fuel → keyAt v t k < vp := by
  intro fuel
  induction fuel with
  | zero => intro i stop hi hfuel hstop; omega
  | succ fuel ih =>
    intro i stop hi hfuel hstop
    rw [scanUp]
    by_cases h : lt (keyAt v t i) vp
    · have hkey : keyAt v t i < vp := (hlt _ _).mp h
      have hne : i ≠ stop := by
        intro he
        exact hstop (he ▸ hkey)
      have h1 : i + 1 ≤ stop := by omega
      have h2 : stop - (i + 1) < fuel := by omega
      obtain ⟨a, b, c, d⟩ := ih (i+1) stop h1 h2 hstop
      rw [if_pos h]
      refine ⟨by omega, b, c, ?_⟩
      intro k hk1 hk2
      by_cases hk : k = i
      · exact hk ▸ hkey
      · exact d k (by omega) hk2
    · rw [if_neg h]
      refine ⟨le_refl i, hi, ?_, fun k hk1 hk2 => by omega⟩
      intro hcon
      exact h ((hlt _ _).mpr hcon)

theorem scanDown_spec {α : Type} [Inhabited α] [LinearOrder α]
    {lt : α → α → Bool} (hlt : ∀ a b, lt a b = true ↔ a < b) (v : List α)
    (t : List ℕ) (vp : α) :
    ∀ (fuel j stop : ℕ), stop ≤ j → j - stop < fuel →
      ¬ vp < keyAt v t stop →
      stop ≤ scanDown lt v t vp j fuel ∧ scanDown lt v t vp j fuel ≤ j ∧
      ¬ vp < keyAt v t (scanDown lt v t vp j fuel) ∧
      ∀ k, scanDown lt v t vp j fuel < k → k ≤ j → vp < keyAt v t k := by
  intro fuel
  induction fuel with
  | zero => intro j stop hj hfuel hstop; omega
  | succ fuel ih =>
    intro j stop hj hfuel hstop
    rw [scanDown]
    by_cases h : lt vp (keyAt v t j)
    · have hkey : vp < keyAt v t j := (hlt _ _).mp h
      have hne : j ≠ stop := by
        intro he
        exact hstop (he ▸ hkey)
      have h1 : stop ≤ j - 1 := by omega
      have h2 : (j - 1) - stop < fuel := by omega
      obtain ⟨a, b, c, d⟩ := ih (j-1) stop h1 h2 hstop
      rw [if_pos h]
      refine ⟨a, by omega, c, ?_⟩
      intro k hk1 hk2
      by_cases hk : k = j
      · exact hk ▸ hkey
      · exact d k hk1 (by omega)
    · rw [if_neg h]
      refine ⟨hj, le_refl j, ?_, fun k hk1 hk2 => by omega⟩
      intro hcon
      exact h ((hlt _ _).mpr hcon)

/-! ### The partition -/

theorem partLoop_spec {α : Type} [Inhabited α] [LinearOrder α]
    {lt : α → α → Bool} (hlt : ∀ a b, lt a b = true ↔ a < b) (v : List α)
    (pl pr : ℕ) (vp : α) :
    ∀ (fuel : ℕ) (t : List ℕ) (pi pj : ℕ),
      pl ≤ pi → pi < pj → pj ≤ pr - 1 → pl + 2 ≤ pr → pr < t.length →
      pj - pi < fuel + 1 →
      (∀ k, pl ≤ k → k ≤ pi → keyAt v t k ≤ vp) →
      (∀ k, pj ≤ k → k ≤ pr - 1 → vp ≤ keyAt v t k) →
      keyAt v t (pr - 1) = vp →
      SegFrame t (partLoop lt v t vp pi pj fuel).1 (pl+1) (pr-2) ∧
      pl + 1 ≤ (partLoop lt v t vp pi pj fuel).2 ∧
      (partLoop lt v t vp pi pj fuel).2 ≤ pr - 1 ∧
      (∀ k, pl ≤ k → k < (partLoop lt v t vp pi pj fuel).2 →
        keyAt v (partLoop lt v t vp pi pj fuel).1 k ≤ vp) ∧
      (∀ k, (partLoop lt v t vp pi pj fuel).2 ≤ k → k ≤ pr - 1 →
        vp ≤ keyAt v (partLoop lt v t vp pi pj fuel).1 k) ∧
      keyAt v (partLoop lt v t vp pi pj fuel).1 (pr - 1) = vp := by
  intro fuel
  induction fuel with
  | zero =>
    intro t pi pj hpi hij hpj hplr hlen hfuel hpre hsuf hpiv
    omega
  | succ fuel ih =>
    intro t pi pj hpi hij hpj hplr hlen hfuel hpre hsuf hpiv
    have hscanU := scanUp_spec hlt v t vp t.length (pi+1) (pr-1)
      (by omega) (by omega)
      (by rw [hpiv]; exact lt_irrefl vp)
    have hscanD := scanDown_spec hlt v t vp t.length (pj-1) pl
      (by omega) (by omega)
      (not_lt.mpr (hpre pl (le_refl pl) hpi))
    obtain ⟨hU1, hU2, hU3, hU4⟩ := hscanU
    obtain ⟨hD1, hD2, hD3, hD4⟩ := hscanD
    rw [partLoop]
    set pi2 := scanUp lt v t vp (pi+1) t.length with hpi2
    set pj2 := scanDown lt v t vp (pj-1) t.length with hpj2
    by_cases hbreak : pi2 ≥ pj2
    · rw [if_pos hbreak]
      refine ⟨SegFrame.refl t _ _, by omega, hU2, ?_, ?_, hpiv⟩
      · intro k hk1 hk2
        by_cases hk : k ≤ pi
        · exact hpre k hk1 hk
        · exact le_of_lt (hU4 k (by omega) hk2)
      · intro k hk1 hk2
        by_cases hk : k = pi2
        · rw [hk]
          exact not_lt.mp hU3
        · by_cases hk2' : k ≤ pj - 1
          · exact le_of_lt (hD4 k (by omega) hk2')
          · exact hsuf k (by omega) hk2
    · rw [if_neg hbreak]
      push_neg at hbreak
      -- swap and continue
      have hpj2r : pj2 ≤ pr - 2 := by omega
      have hpi2l : pl + 1 ≤ pi2 := by omega
      have hpi2len : pi2 < t.length := by omega
      have hpj2len : pj2 < t.length := by omega
      have hframe : SegFrame t (lswap t pi2 pj2) (pl+1) (pr-2) :=
        SegFrame.lswap hpi2l (by omega) (by omega) hpj2r hpi2len hpj2len
      have hkey_pi2 : keyAt v (lswap t pi2 pj2) pi2 = keyAt v t pj2 := by
        unfold keyAt
        rw [getD_lswap_fst t hpi2len]
      have hkey_pj2 : keyAt v (lswap t pi2 pj2) pj2 = keyAt v t pi2 := by
        unfold keyAt
        rw [getD_lswap_snd t hpj2len]
      have hkey_other : ∀ k, k ≠ pi2 → k ≠ pj2 →
          keyAt v (lswap t pi2 pj2) k = keyAt v t k := by
        intro k h1 h2
        unfold keyAt
        rw [getD_lswap_other t h1 h2]
      have hpre2 : ∀ k, pl ≤ k → k ≤ pi2 →
          keyAt v (lswap t pi2 pj2) k ≤ vp := by
        intro k hk1 hk2
        by_cases hk : k = pi2
        · rw [hk, hkey_pi2]
          exact not_lt.mp hD3
        · rw [hkey_other k hk (by omega)]
          by_cases hk' : k ≤ pi
          · exact hpre k hk1 hk'
          · exact le_of_lt (hU4 k (by omega) (by omega))
      have hsuf2 : ∀ k, pj2 ≤ k → k ≤ pr - 1 →
          vp ≤ keyAt v (lswap t pi2 pj2) k := by
        intro k hk1 hk2
        by_cases hk : k = pj2
        · rw [hk, hkey_pj2]
          exact not_lt.mp hU3
        · rw [hkey_other k (by omega) hk]
          by_cases hk' : k ≤ pj - 1
          · exact le_of_lt (hD4 k (by omega) hk')
          · exact hsuf k (by omega) hk2
      have hpiv2 : keyAt v (lswap t pi2 pj2) (pr - 1) = vp := by
        rw [hkey_other (pr-1) (by omega) (by omega)]
        exact hpiv
      have := ih (lswap t pi2 pj2) pi2 pj2 (by omega) hbreak (by omega) hplr
        (by rwa [length_lswap]) (by omega) hpre2 hsuf2 hpiv2
      obtain ⟨f1, f2, f3, f4, f5, f6⟩ := this
      exact ⟨hframe.trans f1, f2, f3, f4, f5, f6⟩


theorem partitionSeg_spec {α : Type} [Inhabited α] [LinearOrder α]
    {lt : α → α → Bool} (hlt : ∀ a b, lt a b = true ↔ a < b) (v : List α)
    (t : List ℕ) (pl pr : ℕ) (hseg : pl + 16 ≤ pr) (hlen : pr < t.length) :
    SegFrame t (partitionSeg lt v t pl pr).1 pl pr ∧
    pl + 1 ≤ (partitionSeg lt v t pl pr).2 ∧
    (partitionSeg lt v t pl pr).2 ≤ pr - 1 ∧
    (∀ k, pl ≤ k → k < (partitionSeg lt v t pl pr).2 →
      keyAt v (partitionSeg lt v t pl pr).1 k ≤
        keyAt v (partitionSeg lt v t pl pr).1 (partitionSeg lt v t pl pr).2) ∧
    (∀ k, (partitionSeg lt v t pl pr).2 ≤ k → k ≤ pr →
      keyAt v (partitionSeg lt v t pl pr).1 (partitionSeg lt v t pl pr).2 ≤
        keyAt v (partitionSeg lt v t pl pr).1 k) := by
  have hpm1 : pl < pl + (pr - pl) / 2 := by omega
  have hpm2 : pl + (pr - pl) / 2 < pr - 1 := by omega
  set pm := pl + (pr - pl) / 2 with hpmdef
  set t1 := if lt (keyAt v t pm) (keyAt v t pl) then lswap t pm pl else t
    with ht1
  have h1len : t1.length = t.length := by
    rw [ht1]; split
    · exact length_lswap t pm pl
    · rfl
  have h1frame : SegFrame t t1 pl pr := by
    rw [ht1]; split
    · exact SegFrame.lswap (by omega) (by omega) (le_refl pl) (by omega)
        (by omega) (by omega)
    · exact SegFrame.refl t pl pr
  have hmed1 : keyAt v t1 pl ≤ keyAt v t1 pm := by
    rw [ht1]; split
    · rename_i hc
      rw [keyAt_lswap_snd v t (by omega), keyAt_lswap_fst v t (by omega)]
      exact le_of_lt ((hlt _ _).mp hc)
    · rename_i hc
      exact not_lt.mp (fun hcon => hc ((hlt _ _).mpr hcon))
  set t2 := if lt (keyAt v t1 pr) (keyAt v t1 pm) then lswap t1 pr pm else t1
    with ht2
  have h2len : t2.length = t.length := by
    rw [ht2]; split
    · rw [length_lswap, h1len]
    · exact h1len
  have h2frame : SegFrame t1 t2 pl pr := by
    rw [ht2]; split
    · exact SegFrame.lswap (by omega) (le_refl pr) (by omega) (by omega)
        (by omega) (by omega)
    · exact SegFrame.refl t1 pl pr
  have h2pl : keyAt v t2 pl = keyAt v t1 pl := by
    rw [ht2]; split
    · exact keyAt_lswap_other v t1 (by omega) (by omega)
    · rfl
  have hmed2 : keyAt v t2 pm ≤ keyAt v t2 pr := by
    rw [ht2]; split
    · rename_i hc
      rw [keyAt_lswap_snd v t1 (by omega), keyAt_lswap_fst v t1 (by omega)]
      exact le_of_lt ((hlt _ _).mp hc)
    · rename_i hc
      exact not_lt.mp (fun hcon => hc ((hlt _ _).mpr hcon))
  have hmed2b : (keyAt v t2 pm = keyAt v t1 pr ∧
      keyAt v t2 pr = keyAt v t1 pm) ∨
      (keyAt v t2 pm = keyAt v t1 pm ∧ keyAt v t2 pr = keyAt v t1 pr ∧
        keyAt v t1 pm ≤ keyAt v t1 pr) := by
    rw [ht2]; split
    · rename_i hc
      exact Or.inl ⟨keyAt_lswap_snd v t1 (by omega),
        keyAt_lswap_fst v t1 (by omega)⟩
    · rename_i hc
      exact Or.inr ⟨rfl, rfl,
        not_lt.mp (fun hcon => hc ((hlt _ _).mpr hcon))⟩
  set t3 := if lt (keyAt v t2 pm) (keyAt v t2 pl) then lswap t2 pm pl else t2
    with ht3
  have h3len : t3.length = t.length := by
    rw [ht3]; split
    · rw [length_lswap, h2len]
    · exact h2len
  have h3frame : SegFrame t2 t3 pl pr := by
    rw [ht3]; split
    · exact SegFrame.lswap (by omega) (by omega) (le_refl pl) (by omega)
        (by omega) (by omega)
    · exact SegFrame.refl t2 pl pr
  have h3pr : keyAt v t3 pr = keyAt v t2 pr := by
    rw [ht3]; split
    · exact keyAt_lswap_other v t2 (by omega) (by omega)
    · rfl
  have hmed3a : keyAt v t3 pl ≤ keyAt v t3 pm := by
    rw [ht3]; split
    · rename_i hc
      rw [keyAt_lswap_snd v t2 (by omega), keyAt_lswap_fst v t2 (by omega)]
      exact le_of_lt ((hlt _ _).mp hc)
    · rename_i hc
      exact not_lt.mp (fun hcon => hc ((hlt _ _).mpr hcon))
  have hmed3b : keyAt v t3 pm ≤ keyAt v t3 pr := by
    rw [h3pr, ht3]
    split
    · rename_i hc
      rw [keyAt_lswap_fst v t2 (by omega)]
      rcases hmed2b with ⟨hm, hr⟩ | ⟨hm, hr, hle⟩
      · rw [h2pl, hr]
        exact hmed1
      · exfalso
        have hc2 : keyAt v t2 pm < keyAt v t2 pl := (hlt _ _).mp hc
        rw [hm, h2pl] at hc2
        exact absurd hmed1 (not_le.mpr hc2)
    · exact hmed2
  set vp := keyAt v t3 pm with hvp
  set t4 := lswap t3 pm (pr - 1) with ht4
  have h4len : t4.length = t.length := by
    rw [ht4, length_lswap, h3len]
  have h4frame : SegFrame t3 t4 pl pr :=
    SegFrame.lswap (by omega) (by omega) (by omega) (by omega) (by omega)
      (by omega)
  have h4piv : keyAt v t4 (pr - 1) = vp :=
    keyAt_lswap_snd v t3 (by omega)
  have h4pl : keyAt v t4 pl = keyAt v t3 pl :=
    keyAt_lswap_other v t3 (by omega) (by omega)
  have h4pr : keyAt v t4 pr = keyAt v t3 pr :=
    keyAt_lswap_other v t3 (by omega) (by omega)
  have hpart := partLoop_spec hlt v pl pr vp t4.length t4 pl (pr - 1)
    (le_refl pl) (by omega) (le_refl (pr - 1)) (by omega)
    (by rw [h4len]; exact hlen) (by rw [h4len]; omega)
    (by
      intro k hk1 hk2
      have hkpl : k = pl := by omega
      subst hkpl
      rw [h4pl]
      exact hmed3a)
    (by
      intro k hk1 hk2
      have hkpr : k = pr - 1 := by omega
      subst hkpr
      rw [h4piv])
    h4piv
  set s := partLoop lt v t4 vp pl (pr - 1) t4.length with hs
  obtain ⟨f1, f2, f3, f4, f5, f6⟩ := hpart
  have hslen : s.1.length = t.length := by
    rw [f1.1, h4len]
  have hs2len : s.2 < s.1.length := by
    rw [hslen]; omega
  have hps : partitionSeg lt v t pl pr = (lswap s.1 s.2 (pr - 1), s.2) := rfl
  rw [hps]
  have hfinframe : SegFrame s.1 (lswap s.1 s.2 (pr - 1)) pl pr :=
    SegFrame.lswap (by omega) (by omega) (by omega) (by omega) hs2len
      (by rw [hslen]; omega)
  have hkeyfin : keyAt v (lswap s.1 s.2 (pr - 1)) s.2 = vp := by
    rw [keyAt_lswap_fst v s.1 hs2len]
    exact f6
  refine ⟨?_, f2, ?_, ?_, ?_⟩
  · exact h1frame.trans (h2frame.trans (h3frame.trans (h4frame.trans
      ((f1.mono (by omega) (by omega)).trans hfinframe))))
  · show s.2 ≤ pr - 1
    exact f3
  · intro k hk1 hk2
    show keyAt v (lswap s.1 s.2 (pr-1)) k ≤ keyAt v (lswap s.1 s.2 (pr-1)) s.2
    rw [hkeyfin, keyAt_lswap_other v s.1 (by omega) (by omega)]
    exact f4 k hk1 hk2
  · intro k hk1 hk2
    show keyAt v (lswap s.1 s.2 (pr-1)) s.2 ≤ keyAt v (lswap s.1 s.2 (pr-1)) k
    rw [hkeyfin]
    by_cases hk : k = s.2
    · rw [hk, hkeyfin]
    · by_cases hk2' : k = pr - 1
      · rw [hk2', keyAt_lswap_snd v s.1 (by rw [hslen]; omega)]
        exact f5 s.2 (le_refl s.2) f3
      · rw [keyAt_lswap_other v s.1 hk hk2']
        by_cases hk3 : k ≤ pr - 1
        · exact f5 k (by omega) (by omega)
        · have hkpr : k = pr := by omega
          rw [hkpr]
          have hout : s.1.getD pr 0 = t4.getD pr 0 := f1.2.2 pr (by omega)
          rw [keyAt_eq_of_getD_eq v hout, h4pr]
          exact hmed3b

/-! ### The insertion sort -/

/-- The reads of [x, y] through t are pairwise non-decreasing. -/
def SortedSeg {α : Type} [Inhabited α] [LinearOrder α] (v : List α)
    (t : List ℕ) (x y : ℕ) : Prop :=
  ∀ a b, x ≤ a → a ≤ b → b ≤ y → keyAt v t a ≤ keyAt v t b

theorem insertInner_spec {α : Type} [Inhabited α] [LinearOrder α]
    {lt : α → α → Bool} (hlt : ∀ a b, lt a b = true ↔ a < b) (v : List α)
    (pl pi0 : ℕ) (vp : α) (vi : ℕ) (hvp : v.getD vi default = vp) :
    ∀ (fuel : ℕ) (t : List ℕ) (pj : ℕ), pl ≤ pj → pj ≤ pi0 →
      pi0 < t.length → pj - pl ≤ fuel →
      SortedSeg v t pl (pj-1) →
      (∀ k, pj < k → k ≤ pi0 → vp < keyAt v t k) →
      (∀ a b, pj < a → a ≤ b → b ≤ pi0 → keyAt v t a ≤ keyAt v t b) →
      (∀ a k, pl ≤ a → a < pj → pj < k → k ≤ pi0 →
        keyAt v t a ≤ keyAt v t k) →
      (insertInner lt v t vp vi pj pl fuel).length = t.length ∧
      (∀ k, k < pl ∨ pi0 < k →
        (insertInner lt v t vp vi pj pl fuel).getD k 0 = t.getD k 0) ∧
      (↑(insertInner lt v t vp vi pj pl fuel) : Multiset ℕ) + {t.getD pj 0} =
        (↑t : Multiset ℕ) + {vi} ∧
      SortedSeg v (insertInner lt v t vp vi pj pl fuel) pl pi0 := by
  -- the planting step, shared by the stop branch and the exhausted-fuel
  -- branch (where pj = pl)
  have plant : ∀ (t : List ℕ) (pj : ℕ), pl ≤ pj → pj ≤ pi0 →
      pi0 < t.length →
      SortedSeg v t pl (pj-1) →
      (∀ k, pj < k → k ≤ pi0 → vp < keyAt v t k) →
      (∀ a b, pj < a → a ≤ b → b ≤ pi0 → keyAt v t a ≤ keyAt v t b) →
      (∀ a k, pl ≤ a → a < pj → pj < k → k ≤ pi0 →
        keyAt v t a ≤ keyAt v t k) →
      (pl < pj → keyAt v t (pj-1) ≤ vp) →
      (t.set pj vi).length = t.length ∧
      (∀ k, k < pl ∨ pi0 < k → (t.set pj vi).getD k 0 = t.getD k 0) ∧
      (↑(t.set pj vi) : Multiset ℕ) + {t.getD pj 0} =
        (↑t : Multiset ℕ) + {vi} ∧
      SortedSeg v (t.set pj vi) pl pi0 := by
    intro t pj hpl hpi hlen hb hc hd he hstop
    have hpjlen : pj < t.length := by omega
    have hkeyset : keyAt v (t.set pj vi) pj = vp := by
      unfold keyAt
      rw [getD_set_self t pj vi hpjlen, hvp]
    have hkeyother : ∀ k, k ≠ pj → keyAt v (t.set pj vi) k = keyAt v t k := by
      intro k hk
      unfold keyAt
      rw [getD_set_ne t vi hk]
    refine ⟨List.length_set t pj vi,
      fun k hk => getD_set_ne t vi (by omega),
      multiset_set t pj vi hpjlen, ?_⟩
    intro a b ha hab hbb
    by_cases hbj : b < pj
    · rw [hkeyother a (by omega), hkeyother b (by omega)]
      exact hb a b ha hab (by omega)
    · by_cases haj : a < pj
      · by_cases hbj2 : b = pj
        · rw [hkeyother a (by omega), hbj2, hkeyset]
          have hplpj : pl < pj := by omega
          calc keyAt v t a ≤ keyAt v t (pj-1) := hb a (pj-1) ha (by omega) (le_refl _)
            _ ≤ vp := hstop hplpj
        · rw [hkeyother a (by omega), hkeyother b (by omega)]
          exact he a b ha haj (by omega) hbb
      · by_cases haj2 : a = pj
        · by_cases hbj2 : b = pj
          · rw [haj2, hbj2]
          · rw [haj2, hkeyset, hkeyother b (by omega)]
            exact le_of_lt (hc b (by omega) hbb)
        · rw [hkeyother a (by omega), hkeyother b (by omega)]
          exact hd a b (by omega) hab hbb
  intro fuel
  induction fuel with
  | zero =>
    intro t pj hpl hpi hlen hfuel hb hc hd he
    have hpj : pj = pl := by omega
    rw [insertInner]
    exact plant t pj hpl hpi hlen hb hc hd he (by omega)
  | succ fuel ih =>
    intro t pj hpl hpi hlen hfuel hb hc hd he
    rw [insertInner]
    by_cases hcond : pl < pj ∧ lt vp (keyAt v t (pj-1))
    · rw [if_pos hcond]
      obtain ⟨hplpj, hltc⟩ := hcond
      have hshift : vp < keyAt v t (pj-1) := (hlt _ _).mp hltc
      set t2 := t.set pj (t.getD (pj-1) 0) with ht2
      have h2len : t2.length = t.length := List.length_set _ _ _
      have hkey2pj : keyAt v t2 pj = keyAt v t (pj-1) := by
        unfold keyAt
        rw [getD_set_self t _ _ (by omega)]
      have hkey2other : ∀ k, k ≠ pj → keyAt v t2 k = keyAt v t k := by
        intro k hk
        unfold keyAt
        rw [getD_set_ne t _ hk]
      have hb2 : SortedSeg v t2 pl (pj-1-1) := by
        intro a b ha hab hbb
        rw [hkey2other a (by omega), hkey2other b (by omega)]
        exact hb a b ha hab (by omega)
      have hc2 : ∀ k, pj-1 < k → k ≤ pi0 → vp < keyAt v t2 k := by
        intro k hk1 hk2
        by_cases hk : k = pj
        · rw [hk, hkey2pj]
          exact hshift
        · rw [hkey2other k hk]
          exact hc k (by omega) hk2
      have hd2 : ∀ a b, pj-1 < a → a ≤ b → b ≤ pi0 →
          keyAt v t2 a ≤ keyAt v t2 b := by
        intro a b ha hab hbb
        by_cases haj : a = pj
        · by_cases hbj : b = pj
          · rw [haj, hbj]
          · rw [haj, hkey2pj, hkey2other b (by omega)]
            exact he (pj-1) b (by omega) (by omega) (by omega) hbb
        · rw [hkey2other a (by omega), hkey2other b (by omega)]
          exact hd a b (by omega) hab hbb
      have he2 : ∀ a k, pl ≤ a → a < pj-1 → pj-1 < k → k ≤ pi0 →
          keyAt v t2 a ≤ keyAt v t2 k := by
        intro a k ha1 ha2 hk1 hk2
        rw [hkey2other a (by omega)]
        by_cases hk : k = pj
        · rw [hk, hkey2pj]
          exact hb a (pj-1) ha1 (by omega) (le_refl _)
        · rw [hkey2other k hk]
          exact he a k ha1 (by omega) (by omega) hk2
      obtain ⟨g1, g2, g3, g4⟩ := ih t2 (pj-1) (by omega) (by omega)
        (by omega) (by omega) hb2 hc2 hd2 he2
      have hstale : t2.getD (pj-1) 0 = t.getD (pj-1) 0 :=
        getD_set_ne t _ (by omega)
      rw [hstale] at g3
      have hmset : (↑t2 : Multiset ℕ) + {t.getD pj 0} =
          (↑t : Multiset ℕ) + {t.getD (pj-1) 0} :=
        multiset_set t pj (t.getD (pj-1) 0) (by omega)
      refine ⟨g1.trans h2len, ?_, ?_, g4⟩
      · intro k hk
        rw [g2 k hk]
        exact getD_set_ne t _ (by omega)
      · have hgoal : ((↑(insertInner lt v t2 vp vi (pj-1) pl fuel) : Multiset ℕ) +
            {t.getD pj 0}) + {t.getD (pj-1) 0} =
            ((↑t : Multiset ℕ) + {vi}) + {t.getD (pj-1) 0} := by
          calc ((↑(insertInner lt v t2 vp vi (pj-1) pl fuel) : Multiset ℕ) +
              {t.getD pj 0}) + {t.getD (pj-1) 0}
              = ((↑(insertInner lt v t2 vp vi (pj-1) pl fuel) : Multiset ℕ) +
                {t.getD (pj-1) 0}) + {t.getD pj 0} := add_right_comm _ _ _
            _ = ((↑t2 : Multiset ℕ) + {vi}) + {t.getD pj 0} := by rw [g3]
            _ = ((↑t2 : Multiset ℕ) + {t.getD pj 0}) + {vi} := add_right_comm _ _ _
            _ = ((↑t : Multiset ℕ) + {t.getD (pj-1) 0}) + {vi} := by rw [hmset]
            _ = ((↑t : Multiset ℕ) + {vi}) + {t.getD (pj-1) 0} := add_right_comm _ _ _
        exact add_right_cancel hgoal
    · rw [if_neg hcond]
      push_neg at hcond
      refine plant t pj hpl hpi hlen hb hc hd he ?_
      intro hplpj
      exact not_lt.mp (fun hcon => absurd ((hlt _ _).mpr hcon) (by
        intro hx
        exact absurd hx (by
          have := hcond hplpj
          simp [this])))

theorem insertionSegAux_spec {α : Type} [Inhabited α] [LinearOrder α]
    {lt : α → α → Bool} (hlt : ∀ a b, lt a b = true ↔ a < b) (v : List α)
    (pl pr : ℕ) :
    ∀ (fuel : ℕ) (t : List ℕ) (pi : ℕ), pl + 1 ≤ pi → pr < t.length →
      pr + 2 - pi ≤ fuel → SortedSeg v t pl (pi-1) →
      (insertionSegAux lt v t pl pr pi fuel).length = t.length ∧
      (∀ k, k < pl ∨ pr < k →
        (insertionSegAux lt v t pl pr pi fuel).getD k 0 = t.getD k 0) ∧
      ((insertionSegAux lt v t pl pr pi fuel) ~ t) ∧
      SortedSeg v (insertionSegAux lt v t pl pr pi fuel) pl pr := by
  intro fuel
  induction fuel with
  | zero =>
    intro t pi hpi hlen hfuel hsorted
    rw [insertionSegAux]
    refine ⟨rfl, fun k hk => rfl, List.Perm.refl t, ?_⟩
    intro a b ha hab hbb
    exact hsorted a b ha hab (by omega)
  | succ fuel ih =>
    intro t pi hpi hlen hfuel hsorted
    rw [insertionSegAux]
    by_cases hpir : pi ≤ pr
    · rw [if_pos hpir]
      obtain ⟨g1, g2, g3, g4⟩ := insertInner_spec hlt v pl pi
        (v.getD (t.getD pi 0) default) (t.getD pi 0) rfl t.length t pi
        (by omega) (le_refl pi) (by omega) (by omega)
        hsorted
        (fun k hk1 hk2 => by omega)
        (fun a b ha hab hbb => by omega)
        (fun a k ha1 ha2 hk1 hk2 => by omega)
      set t2 := insertInner lt v t (v.getD (t.getD pi 0) default)
        (t.getD pi 0) pi pl t.length with ht2
      have hperm2 : t2 ~ t := by
        rw [← Multiset.coe_eq_coe]
        exact add_right_cancel g3
      obtain ⟨f1, f2, f3, f4⟩ := ih t2 (pi+1) (by omega)
        (by rw [g1]; exact hlen) (by omega)
        (by
          intro a b ha hab hbb
          exact g4 a b ha hab (by omega))
      refine ⟨f1.trans g1, ?_, f3.trans hperm2, f4⟩
      intro k hk
      rw [f2 k hk]
      exact g2 k (by omega)
    · rw [if_neg hpir]
      refine ⟨rfl, fun k hk => rfl, List.Perm.refl t, ?_⟩
      intro a b ha hab hbb
      exact hsorted a b ha hab (by omega)

theorem insertionSeg_spec {α : Type} [Inhabited α] [LinearOrder α]
    {lt : α → α → Bool} (hlt : ∀ a b, lt a b = true ↔ a < b) (v : List α)
    (t : List ℕ) (pl pr : ℕ) (hlen : pr < t.length) :
    SegFrame t (insertionSeg lt v t pl pr) pl pr ∧
    SortedSeg v (insertionSeg lt v t pl pr) pl pr := by
  obtain ⟨f1, f2, f3, f4⟩ := insertionSegAux_spec hlt v pl pr (t.length + 1)
    t (pl+1) (le_refl _) hlen (by omega)
    (by
      intro a b ha hab hbb
      have hone : a = b := by omega
      rw [hone])
  exact ⟨⟨f1, f3, f2⟩, f4⟩

/-! ### The heapsort -/

/-- The key of one-based heap position k within the segment starting at b,
seen through the virtual array that carries the value of tmp in the
current hole. -/
def holeKey {α : Type} [Inhabited α] (v : List α) (t : List ℕ)
    (b tmp hole k : ℕ) : α :=
  if k = hole then v.getD tmp default else keyAt v t (b + k - 1)

theorem siftLoop_spec {α : Type} [Inhabited α] [LinearOrder α]
    {lt : α → α → Bool} (hlt : ∀ a b, lt a b = true ↔ a < b) (v : List α)
    (b tmp n i0 : ℕ) (hi0 : 1 ≤ i0) :
    ∀ (fuel : ℕ) (t : List ℕ) (i j : ℕ), i0 ≤ i → i ≤ n → j = i + i →
      b + n ≤ t.length → n + 1 - i ≤ fuel →
      (∀ k, 2 ≤ k → k ≤ n → i0 ≤ k / 2 → k / 2 ≠ i →
        holeKey v t b tmp i k ≤ holeKey v t b tmp i (k / 2)) →
      (i ≠ i0 → ∀ c, (c = 2*i ∨ c = 2*i + 1) → c ≤ n →
        keyAt v t (b + c - 1) ≤ keyAt v t (b + i / 2 - 1)) →
      (siftLoop lt v b tmp n t i j fuel).1.length = t.length ∧
      i0 ≤ (siftLoop lt v b tmp n t i j fuel).2 ∧
      (siftLoop lt v b tmp n t i j fuel).2 ≤ n ∧
      (∀ p, p < b + i0 - 1 ∨ b + n - 1 < p →
        (siftLoop lt v b tmp n t i j fuel).1.getD p 0 = t.getD p 0) ∧
      ((↑((siftLoop lt v b tmp n t i j fuel).1.set
          (b + (siftLoop lt v b tmp n t i j fuel).2 - 1) tmp) : Multiset ℕ) +
        {t.getD (b + i - 1) 0} = (↑t : Multiset ℕ) + {tmp}) ∧
      (∀ k, 2 ≤ k → k ≤ n → i0 ≤ k / 2 →
        keyAt v ((siftLoop lt v b tmp n t i j fuel).1.set
            (b + (siftLoop lt v b tmp n t i j fuel).2 - 1) tmp) (b + k - 1) ≤
          keyAt v ((siftLoop lt v b tmp n t i j fuel).1.set
            (b + (siftLoop lt v b tmp n t i j fuel).2 - 1) tmp)
            (b + k / 2 - 1)) := by
  -- the common stop step: plant tmp in the hole at i
  have plant : ∀ (t : List ℕ) (i : ℕ), i0 ≤ i → 1 ≤ i → i ≤ n →
      b + n ≤ t.length →
      (∀ k, 2 ≤ k → k ≤ n → i0 ≤ k / 2 → k / 2 ≠ i →
        holeKey v t b tmp i k ≤ holeKey v t b tmp i (k / 2)) →
      (∀ k, (k = 2*i ∨ k = 2*i + 1) → k ≤ n →
        keyAt v t (b + k - 1) ≤ v.getD tmp default) →
      (∀ k, 2 ≤ k → k ≤ n → i0 ≤ k / 2 →
        keyAt v (t.set (b + i - 1) tmp) (b + k - 1) ≤
          keyAt v (t.set (b + i - 1) tmp) (b + k / 2 - 1)) := by
    intro t i hii0 hi1 hin hblen hH3 hch k hk2 hkn hk0
    have hilen : b + i - 1 < t.length := by omega
    have hkeyset : keyAt v (t.set (b + i - 1) tmp) (b + i - 1) =
        v.getD tmp default := by
      unfold keyAt
      rw [getD_set_self t _ _ hilen]
    have hkeyother : ∀ p, p ≠ b + i - 1 →
        keyAt v (t.set (b + i - 1) tmp) p = keyAt v t p := by
      intro p hp
      unfold keyAt
      rw [getD_set_ne t _ hp]
    by_cases hpar : k / 2 = i
    · -- relation between the planted hole and its children
      have hkne : k ≠ i := by omega
      have hkch : k = 2*i ∨ k = 2*i + 1 := by omega
      rw [hkeyother (b + k - 1) (by omega), hpar, hkeyset]
      exact hch k hkch hkn
    · by_cases hki : k = i
      · -- the planted hole as a child of its parent
        have e1 : keyAt v (t.set (b + i - 1) tmp) (b + k - 1) =
            v.getD tmp default := by
          rw [hki]
          exact hkeyset
        have e2 : keyAt v (t.set (b + i - 1) tmp) (b + k / 2 - 1) =
            keyAt v t (b + k / 2 - 1) := hkeyother _ (by omega)
        rw [e1, e2]
        have := hH3 i (by omega) hin (by omega) (by omega)
        rw [holeKey, if_pos rfl, holeKey, if_neg (by omega)] at this
        have e3 : (b + i / 2 - 1) = (b + k / 2 - 1) := by omega
        rw [e3] at this
        exact this
      · -- untouched pair
        rw [hkeyother (b + k - 1) (by omega),
          hkeyother (b + k / 2 - 1) (by omega)]
        have := hH3 k hk2 hkn hk0 hpar
        rw [holeKey, if_neg hki, holeKey, if_neg hpar] at this
        exact this
  intro fuel
  induction fuel with
  | zero =>
    intro t i j hii0 hin hj hblen hfuel hH3 hH4
    omega
  | succ fuel ih =>
    intro t i j hii0 hin hj hblen hfuel hH3 hH4
    have hi1 : 1 ≤ i := by omega
    have hilen : b + i - 1 < t.length := by omega
    rw [siftLoop]
    by_cases hjn : j ≤ n
    · rw [if_pos hjn]
      set j2 := if j < n ∧ lt (keyAt v t (b+j-1)) (keyAt v t (b+j)) then j+1
        else j with hj2def
      have hj2range : j2 = j ∨ j2 = j + 1 := by
        rw [hj2def]; split
        · exact Or.inr rfl
        · exact Or.inl rfl
      have hj2n : j2 ≤ n := by
        rw [hj2def]; split
        · omega
        · omega
      have hj2ch : j2 = 2*i ∨ j2 = 2*i + 1 := by omega
      have hmaxch : ∀ c, (c = 2*i ∨ c = 2*i + 1) → c ≤ n →
          keyAt v t (b + c - 1) ≤ keyAt v t (b + j2 - 1) := by
        intro c hc hcn
        rw [hj2def]
        split
        · rename_i hcond
          have hlt2 : keyAt v t (b+j-1) < keyAt v t (b+j) :=
            (hlt _ _).mp hcond.2
          rcases hc with hc | hc
          · have : c = j := by omega
            rw [this]
            have : b + (j+1) - 1 = b + j := by omega
            rw [this]
            exact le_of_lt hlt2
          · have : c = j + 1 := by omega
            rw [this]
        · rename_i hcond
          rcases hc with hc | hc
          · have : c = j := by omega
            rw [this]
          · have hcj : c = j + 1 := by omega
            have hjn2 : j < n := by omega
            have hnlt : ¬ keyAt v t (b+j-1) < keyAt v t (b+j) := by
              intro hcon
              exact hcond ⟨hjn2, (hlt _ _).mpr hcon⟩
            have : b + c - 1 = b + j := by omega
            rw [this]
            exact not_lt.mp hnlt
      by_cases hdesc : lt (v.getD tmp default) (keyAt v t (b+j2-1))
      · rw [if_pos hdesc]
        have hdesc2 : v.getD tmp default < keyAt v t (b+j2-1) :=
          (hlt _ _).mp hdesc
        set t2 := t.set (b+i-1) (t.getD (b+j2-1) 0) with ht2
        have h2len : t2.length = t.length := List.length_set _ _ _
        have hkey2i : keyAt v t2 (b+i-1) = keyAt v t (b+j2-1) := by
          unfold keyAt
          rw [getD_set_self t _ _ hilen]
        have hkey2other : ∀ p, p ≠ b+i-1 → keyAt v t2 p = keyAt v t p := by
          intro p hp
          unfold keyAt
          rw [getD_set_ne t _ hp]
        have hij2 : i < j2 := by omega
        -- re-established hole invariant for the new hole j2
        have hH3' : ∀ k, 2 ≤ k → k ≤ n → i0 ≤ k / 2 → k / 2 ≠ j2 →
            holeKey v t2 b tmp j2 k ≤ holeKey v t2 b tmp j2 (k / 2) := by
          intro k hk2 hkn hk0 hkpar
          by_cases hkj2 : k = j2
          · -- new hole as child of old hole
            have hkdiv : k / 2 = i := by omega
            rw [holeKey, if_pos hkj2, holeKey, if_neg (by omega), hkdiv,
              hkey2i]
            exact le_of_lt hdesc2
          · rw [holeKey, if_neg hkj2, holeKey, if_neg hkpar]
            by_cases hki : k = i
            · -- old hole as child of its parent
              have e1 : keyAt v t2 (b + k - 1) = keyAt v t (b + j2 - 1) := by
                rw [hki]
                exact hkey2i
              have e2 : keyAt v t2 (b + k / 2 - 1) =
                  keyAt v t (b + k / 2 - 1) := hkey2other _ (by omega)
              rw [e1, e2]
              have := hH4 (by omega) j2 hj2ch hj2n
              have e3 : (b + i / 2 - 1) = (b + k / 2 - 1) := by omega
              rw [e3] at this
              exact this
            · by_cases hkpi : k / 2 = i
              · -- sibling of the new hole
                rw [hkey2other (b + k - 1) (by omega), hkpi, hkey2i]
                exact hmaxch k (by omega) hkn
              · rw [hkey2other (b + k - 1) (by omega),
                  hkey2other (b + k/2 - 1) (by omega)]
                have := hH3 k hk2 hkn hk0 hkpi
                rw [holeKey, if_neg hki, holeKey, if_neg hkpi] at this
                exact this
        have hH4' : j2 ≠ i0 → ∀ c, (c = 2*j2 ∨ c = 2*j2 + 1) → c ≤ n →
            keyAt v t2 (b + c - 1) ≤ keyAt v t2 (b + j2 / 2 - 1) := by
          intro _ c hc hcn
          have hcj2 : c / 2 = j2 := by omega
          have hcne : c ≠ i := by omega
          have hcne2 : c ≠ j2 := by omega
          have hj2div : j2 / 2 = i := by omega
          rw [hj2div, hkey2i, hkey2other (b + c - 1) (by omega)]
          have := hH3 c (by omega) hcn (by omega) (by omega)
          rw [holeKey, if_neg hcne, holeKey, if_neg (by omega), hcj2] at this
          exact this
        obtain ⟨g1, g2, g3, g4, g5, g6⟩ := ih t2 j2 (j2+j2) (by omega) hj2n
          rfl (by omega) (by omega) hH3' hH4'
        have hstale : t2.getD (b+j2-1) 0 = t.getD (b+j2-1) 0 :=
          getD_set_ne t _ (by omega)
        rw [hstale] at g5
        have hmset : (↑t2 : Multiset ℕ) + {t.getD (b+i-1) 0} =
            (↑t : Multiset ℕ) + {t.getD (b+j2-1) 0} :=
          multiset_set t (b+i-1) _ hilen
        refine ⟨g1.trans h2len, g2, g3, ?_, ?_, g6⟩
        · intro p hp
          rw [g4 p hp]
          exact getD_set_ne t _ (by omega)
        · set r := (siftLoop lt v b tmp n t2 j2 (j2+j2) fuel).1.set
            (b + (siftLoop lt v b tmp n t2 j2 (j2+j2) fuel).2 - 1) tmp with hr
          have hgoal : ((↑r : Multiset ℕ) + {t.getD (b+i-1) 0}) +
              {t.getD (b+j2-1) 0} =
              ((↑t : Multiset ℕ) + {tmp}) + {t.getD (b+j2-1) 0} := by
            calc ((↑r : Multiset ℕ) + {t.getD (b+i-1) 0}) + {t.getD (b+j2-1) 0}
                = ((↑r : Multiset ℕ) + {t.getD (b+j2-1) 0}) +
                  {t.getD (b+i-1) 0} := add_right_comm _ _ _
              _ = ((↑t2 : Multiset ℕ) + {tmp}) + {t.getD (b+i-1) 0} := by
                  rw [g5]
              _ = ((↑t2 : Multiset ℕ) + {t.getD (b+i-1) 0}) + {tmp} :=
                  add_right_comm _ _ _
              _ = ((↑t : Multiset ℕ) + {t.getD (b+j2-1) 0}) + {tmp} := by
                  rw [hmset]
              _ = ((↑t : Multiset ℕ) + {tmp}) + {t.getD (b+j2-1) 0} :=
                  add_right_comm _ _ _
          exact add_right_cancel hgoal
      · rw [if_neg hdesc]
        have hstop : keyAt v t (b+j2-1) ≤ v.getD tmp default := by
          refine not_lt.mp ?_
          intro hcon
          exact hdesc ((hlt _ _).mpr hcon)
        refine ⟨rfl, hii0, hin, fun p hp => rfl,
          multiset_set t (b+i-1) tmp hilen, ?_⟩
        refine plant t i hii0 hi1 hin hblen hH3 ?_
        intro k hk hkn
        exact le_trans (hmaxch k hk hkn) hstop
    · rw [if_neg hjn]
      refine ⟨rfl, hii0, hin, fun p hp => rfl,
        multiset_set t (b+i-1) tmp hilen, ?_⟩
      refine plant t i hii0 hi1 hin hblen hH3 ?_
      intro k hk hkn
      omega

/-- In a heap, every element is at most the root. -/
theorem heapRootMax {α : Type} [Inhabited α] [LinearOrder α] (v : List α)
    (t : List ℕ) (b m : ℕ)
    (hheap : ∀ k, 2 ≤ k → k ≤ m → keyAt v t (b + k - 1) ≤
      keyAt v t (b + k / 2 - 1)) :
    ∀ k, 1 ≤ k → k ≤ m → keyAt v t (b + k - 1) ≤ keyAt v t b := by
  intro k
  induction k using Nat.strong_induction_on with
  | _ k ih =>
    intro hk1 hkm
    by_cases hk : k = 1
    · rw [hk]
      have : b + 1 - 1 = b := by omega
      rw [this]
    · calc keyAt v t (b + k - 1) ≤ keyAt v t (b + k / 2 - 1) :=
          hheap k (by omega) hkm
        _ ≤ keyAt v t b := ih (k / 2) (by omega) (by omega) (by omega)

/-- Transfer of a window exchange: if two arrays agree outside [lo, hi],
have equal length, and their full multisets differ by trading x for y,
then every entry of the new window is y or an entry of the old window. -/
theorem window_exchange_mem {r t1 : List ℕ} {lo hi x y : ℕ}
    (hlen : r.length = t1.length)
    (hout : ∀ p, p < lo ∨ hi < p → r.getD p 0 = t1.getD p 0)
    (hex : (↑r : Multiset ℕ) + {x} = (↑t1 : Multiset ℕ) + {y})
    {p : ℕ} (hp : lo ≤ p) (hp2 : p ≤ hi) (hplen : p < r.length) :
    r.getD p 0 = y ∨
    ∃ q, lo ≤ q ∧ q ≤ hi ∧ q < t1.length ∧ t1.getD q 0 = r.getD p 0 := by
  have hsplit : ∀ (u : List ℕ),
      (↑u : Multiset ℕ) = ↑(insideVals u lo hi) +
        ↑(((List.range u.length).filter
          (fun k => !(insideP lo hi k))).map (fun k => u.getD k 0)) := by
    intro u
    have hperm : ((List.range u.length).filter (insideP lo hi) ++
        (List.range u.length).filter (fun k => !(insideP lo hi k))) ~
          List.range u.length :=
      List.filter_append_perm (insideP lo hi) (List.range u.length)
    have hc := (hperm.map (fun k => u.getD k 0)).symm
    rw [← Multiset.coe_eq_coe] at hc
    calc (↑u : Multiset ℕ)
        = ↑((List.range u.length).map (fun k => u.getD k 0)) := by
          conv_lhs => rw [self_eq_map_range u]
      _ = _ := by rw [hc, List.map_append, Multiset.coe_add]; rfl
  have houts : ((List.range r.length).filter
      (fun k => !(insideP lo hi k))).map (fun k => r.getD k 0) =
      ((List.range t1.length).filter
      (fun k => !(insideP lo hi k))).map (fun k => t1.getD k 0) := by
    rw [hlen]
    refine List.map_congr_left ?_
    intro k hk
    have hk2 := List.of_mem_filter hk
    simp only [insideP, Bool.not_eq_true', Bool.and_eq_false_iff,
      decide_eq_false_iff_not, not_le] at hk2
    refine hout k ?_
    rcases hk2 with h | h
    · exact Or.inl h
    · exact Or.inr h
  have h1 := hsplit r
  have h2 := hsplit t1
  rw [houts] at h1
  have hwin : (↑(insideVals r lo hi) : Multiset ℕ) + {x} =
      (↑(insideVals t1 lo hi) : Multiset ℕ) + {y} := by
    have hx : (↑(insideVals r lo hi) : Multiset ℕ) +
        ↑(((List.range t1.length).filter
          (fun k => !(insideP lo hi k))).map (fun k => t1.getD k 0)) + {x} =
        (↑(insideVals t1 lo hi) : Multiset ℕ) +
        ↑(((List.range t1.length).filter
          (fun k => !(insideP lo hi k))).map (fun k => t1.getD k 0)) + {y} := by
      rw [← h1, ← h2]
      exact hex
    have hx2 := hx
    rw [add_right_comm _ _ ({x} : Multiset ℕ), add_right_comm _ _
      ({y} : Multiset ℕ)] at hx2
    exact add_right_cancel hx2
  have hmem : r.getD p 0 ∈ insideVals r lo hi := by
    refine List.mem_map.mpr ⟨p, ?_, rfl⟩
    refine List.mem_filter.mpr ⟨List.mem_range.mpr hplen, ?_⟩
    simp only [insideP, Bool.and_eq_true, decide_eq_true_eq]
    exact ⟨hp, hp2⟩
  have hmem2 : r.getD p 0 ∈ (↑(insideVals t1 lo hi) : Multiset ℕ) + {y} := by
    rw [← hwin]
    exact Multiset.mem_add.mpr (Or.inl (by exact_mod_cast hmem))
  rcases Multiset.mem_add.mp hmem2 with h | h
  · right
    have h3 : r.getD p 0 ∈ insideVals t1 lo hi := by exact_mod_cast h
    obtain ⟨q, hq, hqv⟩ := List.mem_map.mp h3
    have hq2 := List.mem_filter.mp hq
    have hq3 : lo ≤ q ∧ q ≤ hi := by simpa [insideP] using hq2.2
    exact ⟨q, hq3.1, hq3.2, List.mem_range.mp hq2.1, hqv⟩
  · left
    simpa using h

theorem heapBuild_spec {α : Type} [Inhabited α] [LinearOrder α]
    {lt : α → α → Bool} (hlt : ∀ a b, lt a b = true ↔ a < b) (v : List α)
    (b n : ℕ) :
    ∀ (l : ℕ) (t : List ℕ), 2 * l ≤ n → b + n ≤ t.length →
      (∀ k, 2 ≤ k → k ≤ n → l + 1 ≤ k / 2 →
        keyAt v t (b + k - 1) ≤ keyAt v t (b + k / 2 - 1)) →
      (heapBuild lt v b n t l).length = t.length ∧
      ((heapBuild lt v b n t l) ~ t) ∧
      (∀ p, p < b ∨ b + n - 1 < p →
        (heapBuild lt v b n t l).getD p 0 = t.getD p 0) ∧
      (∀ k, 2 ≤ k → k ≤ n → keyAt v (heapBuild lt v b n t l) (b + k - 1) ≤
        keyAt v (heapBuild lt v b n t l) (b + k / 2 - 1)) := by
  intro l
  induction l with
  | zero =>
    intro t hl hlen hpre
    rw [heapBuild]
    exact ⟨rfl, List.Perm.refl t, fun p hp => rfl,
      fun k hk2 hkn => hpre k hk2 hkn (by omega)⟩
  | succ l ih =>
    intro t hl hlen hpre
    rw [heapBuild]
    have hm1 : l + 1 ≤ n := by omega
    have hmlen : b + l < t.length := by omega
    have htmpkey : v.getD (t.getD (b + l) 0) default =
        keyAt v t (b + (l+1) - 1) := by
      unfold keyAt
      have : b + (l + 1) - 1 = b + l := by omega
      rw [this]
    obtain ⟨g1, g2, g3, g4, g5, g6⟩ := siftLoop_spec hlt v b
      (t.getD (b + l) 0) n (l+1) (by omega) (t.length + 1) t (l+1)
      ((l+1)+(l+1)) (le_refl _) hm1 rfl hlen (by omega)
      (by
        intro k hk2 hkn hk0 hkne
        have hkbig : l + 2 ≤ k / 2 := by omega
        have hkne2 : k ≠ l + 1 := by omega
        rw [holeKey, if_neg hkne2, holeKey, if_neg hkne]
        exact hpre k hk2 hkn hkbig)
      (by
        intro hik
        exact absurd rfl hik)
    set s := siftLoop lt v b (t.getD (b + l) 0) n t (l+1) ((l+1)+(l+1))
      (t.length + 1) with hs
    set r := s.1.set (b + s.2 - 1) (t.getD (b + l) 0) with hr
    have hrlen : r.length = t.length := by
      rw [hr, List.length_set]
      exact g1
    have hstale : b + (l + 1) - 1 = b + l := by omega
    rw [hstale] at g5
    have hrperm : r ~ t := by
      rw [← Multiset.coe_eq_coe]
      exact add_right_cancel g5
    obtain ⟨f1, f2, f3, f4⟩ := ih r (by omega) (by omega)
      (by
        intro k hk2 hkn hk0
        exact g6 k hk2 hkn (by omega))
    refine ⟨f1.trans hrlen, f2.trans hrperm, ?_, f4⟩
    intro p hp
    rw [f3 p hp, hr]
    rw [getD_set_ne _ _ (by omega)]
    exact g4 p (by omega)

theorem heapExtract_spec {α : Type} [Inhabited α] [LinearOrder α]
    {lt : α → α → Bool} (hlt : ∀ a b, lt a b = true ↔ a < b) (v : List α)
    (b N : ℕ) :
    ∀ (m : ℕ) (t : List ℕ), m ≤ N → b + N ≤ t.length →
      (∀ k, 2 ≤ k → k ≤ m →
        keyAt v t (b + k - 1) ≤ keyAt v t (b + k / 2 - 1)) →
      (∀ a c, m < a → a ≤ c → c ≤ N →
        keyAt v t (b + a - 1) ≤ keyAt v t (b + c - 1)) →
      (∀ k q, 1 ≤ k → k ≤ m → m < q → q ≤ N →
        keyAt v t (b + k - 1) ≤ keyAt v t (b + q - 1)) →
      (heapExtract lt v b t m).length = t.length ∧
      ((heapExtract lt v b t m) ~ t) ∧
      (∀ p, p < b ∨ b + N - 1 < p →
        (heapExtract lt v b t m).getD p 0 = t.getD p 0) ∧
      (∀ a c, 1 ≤ a → a ≤ c → c ≤ N →
        keyAt v (heapExtract lt v b t m) (b + a - 1) ≤
          keyAt v (heapExtract lt v b t m) (b + c - 1)) := by
  intro m
  induction m using Nat.strong_induction_on with
  | _ m ihm =>
    match m with
    | 0 =>
      intro t hmN hlen hheap hsuf hbound
      rw [heapExtract]
      exact ⟨rfl, List.Perm.refl t, fun p hp => rfl,
        fun a c ha hac hcN => hsuf a c (by omega) hac hcN⟩
    | 1 =>
      intro t hmN hlen hheap hsuf hbound
      rw [heapExtract]
      refine ⟨rfl, List.Perm.refl t, fun p hp => rfl, ?_⟩
      intro a c ha hac hcN
      by_cases ha1 : a = 1
      · by_cases hc1 : c = 1
        · rw [ha1, hc1]
        · rw [ha1]
          exact hbound 1 c (le_refl 1) (le_refl 1) (by omega) hcN
      · exact hsuf a c (by omega) hac hcN
    | n + 2 =>
      intro t hmN hlen hheap hsuf hbound
      rw [heapExtract]
      have hblen : b + n + 1 < t.length := by omega
      have hbroot : b < t.length := by omega
      set tmp := t.getD (b + n + 1) 0 with htmp
      set t1 := t.set (b + n + 1) (t.getD b 0) with ht1
      have h1len : t1.length = t.length := List.length_set _ _ _
      have hkey1other : ∀ p, p ≠ b + n + 1 → keyAt v t1 p = keyAt v t p := by
        intro p hp
        unfold keyAt
        rw [ht1, getD_set_ne t _ hp]
      have hkey1top : keyAt v t1 (b + n + 1) = keyAt v t b := by
        unfold keyAt
        rw [ht1, getD_set_self t _ _ hblen]
      have hRM : ∀ k, 1 ≤ k → k ≤ n + 2 →
          keyAt v t (b + k - 1) ≤ keyAt v t b :=
        heapRootMax v t b (n + 2) hheap
      have htmpkey : v.getD tmp default = keyAt v t (b + n + 1) := by
        unfold keyAt
        rw [htmp]
      obtain ⟨g1, g2, g3, g4, g5, g6⟩ := siftLoop_spec hlt v b tmp (n+1) 1
        (le_refl 1) (t1.length + 1) t1 1 2 (le_refl 1) (by omega) rfl
        (by omega) (by omega)
        (by
          intro k hk2 hkn hk0 hkne
          have hkne1 : k ≠ 1 := by omega
          rw [holeKey, if_neg hkne1, holeKey, if_neg hkne]
          rw [hkey1other (b + k - 1) (by omega),
            hkey1other (b + k / 2 - 1) (by omega)]
          exact hheap k hk2 (by omega))
        (by
          intro hik
          exact absurd rfl hik)
      set s := siftLoop lt v b tmp (n+1) t1 1 2 (t1.length + 1) with hs
      set r := s.1.set (b + s.2 - 1) tmp with hr
      have hrlen : r.length = t.length := by
        rw [hr, List.length_set, g1, h1len]
      have hone : b + 1 - 1 = b := by omega
      rw [hone] at g5
      have hstale : t1.getD b 0 = t.getD b 0 := by
        rw [ht1]
        exact getD_set_ne t _ (by omega)
      rw [hstale] at g5
      have hmset1 : (↑t1 : Multiset ℕ) + {tmp} =
          (↑t : Multiset ℕ) + {t.getD b 0} := by
        rw [ht1, htmp]
        exact multiset_set t (b + n + 1) _ hblen
      have hrperm : r ~ t := by
        rw [← Multiset.coe_eq_coe]
        have hx : (↑r : Multiset ℕ) + {t.getD b 0} =
            (↑t : Multiset ℕ) + {t.getD b 0} := g5.trans hmset1
        exact add_right_cancel hx
      -- positions at or beyond b+n+1 are untouched by the sift and plant
      have hrout : ∀ p, b + n < p → r.getD p 0 = t1.getD p 0 := by
        intro p hp
        rw [hr]
        rw [getD_set_ne _ _ (by omega)]
        exact g4 p (by omega)
      have hrsuffix : ∀ a, n + 1 < a → a ≤ N →
          keyAt v r (b + a - 1) = keyAt v t1 (b + a - 1) := by
        intro a ha haN
        exact keyAt_eq_of_getD_eq v (hrout (b + a - 1) (by omega))
      -- every key of the shrunken heap is at most the old root key
      have hrheapbound : ∀ k, 1 ≤ k → k ≤ n + 1 →
          keyAt v r (b + k - 1) ≤ keyAt v t b := by
        intro k hk1 hkn
        have hq := @window_exchange_mem r t1 b (b + n) (t.getD b 0) tmp
          (by rw [hrlen, h1len]) ?_ g5 (b + k - 1) (by omega) (by omega)
          (by omega)
        · rcases hq with h | ⟨q, hq1, hq2, hq3, hq4⟩
          · have : keyAt v r (b + k - 1) = v.getD tmp default := by
              unfold keyAt
              rw [h]
            rw [this, htmpkey]
            have := hRM (n + 2) (by omega) (le_refl _)
            have he : b + (n + 2) - 1 = b + n + 1 := by omega
            rw [he] at this
            exact this
          · have : keyAt v r (b + k - 1) = keyAt v t1 q := by
              unfold keyAt
              rw [hq4]
            rw [this, hkey1other q (by omega)]
            have := hRM (q - b + 1) (by omega) (by omega)
            have he : b + (q - b + 1) - 1 = q := by omega
            rw [he] at this
            exact this
        · intro p hp
          rw [hr, getD_set_ne _ _ (by omega)]
          exact g4 p (by omega)
      obtain ⟨f1, f2, f3, f4⟩ := ihm (n+1) (by omega) r (by omega)
        (by omega)
        (by
          intro k hk2 hkn
          exact g6 k hk2 hkn (by omega))
        (by
          intro a c ha hac hcN
          rw [hrsuffix a (by omega) (by omega),
            hrsuffix c (by omega) hcN]
          by_cases ha2 : a = n + 2
          · rw [ha2]
            have he : b + (n + 2) - 1 = b + n + 1 := by omega
            rw [he, hkey1top]
            by_cases hc2 : c = n + 2
            · rw [hc2, he, hkey1top]
            · rw [hkey1other (b + c - 1) (by omega)]
              exact hbound 1 c (le_refl 1) (by omega) (by omega) hcN
          · rw [hkey1other (b + a - 1) (by omega),
              hkey1other (b + c - 1) (by omega)]
            exact hsuf a c (by omega) hac hcN)
        (by
          intro k q hk1 hkn hq hqN
          rw [hrsuffix q (by omega) hqN]
          have hkey_root : keyAt v t b ≤ keyAt v t1 (b + q - 1) := by
            by_cases hq2 : q = n + 2
            · rw [hq2]
              have he : b + (n + 2) - 1 = b + n + 1 := by omega
              rw [he, hkey1top]
            · rw [hkey1other (b + q - 1) (by omega)]
              exact hbound 1 q (le_refl 1) (by omega) (by omega) hqN
          exact le_trans (hrheapbound k hk1 hkn) hkey_root)
      refine ⟨f1.trans hrlen, f2.trans hrperm, ?_, f4⟩
      intro p hp
      rw [f3 p hp, hr, getD_set_ne _ _ (by omega), g4 p (by omega), ht1,
        getD_set_ne t _ (by omega)]

theorem heapsortSeg_spec {α : Type} [Inhabited α] [LinearOrder α]
    {lt : α → α → Bool} (hlt : ∀ a b, lt a b = true ↔ a < b) (v : List α)
    (t : List ℕ) (pl pr : ℕ) (hplr : pl ≤ pr) (hlen : pr < t.length) :
    SegFrame t (heapsortSeg lt v t pl pr) pl pr ∧
    SortedSeg v (heapsortSeg lt v t pl pr) pl pr := by
  rw [heapsortSeg]
  set n := pr + 1 - pl with hn
  obtain ⟨b1, b2, b3, b4⟩ := heapBuild_spec hlt v pl n (n/2) t (by omega)
    (by omega) (by intro k hk2 hkn hhalf; omega)
  set tb := heapBuild lt v pl n t (n/2) with htb
  obtain ⟨e1, e2, e3, e4⟩ := heapExtract_spec hlt v pl n n tb (le_refl n)
    (by rw [b1]; omega) b4
    (by intro a c ha hac hcN; omega)
    (by intro k q hk1 hkm hmq hqN; omega)
  refine ⟨⟨e1.trans b1, e2.trans b2, ?_⟩, ?_⟩
  · intro k hk
    rw [e3 k (by omega), b3 k (by omega)]
  · intro a c ha hac hcp
    have h := e4 (a - pl + 1) (c - pl + 1) (by omega) (by omega) (by omega)
    have he1 : pl + (a - pl + 1) - 1 = a := by omega
    have he2 : pl + (c - pl + 1) - 1 = c := by omega
    rw [he1, he2] at h
    exact h

/-! ### The introsort driving loop -/

/-- Position k lies in the closed segment s. -/
def inSeg (s : ℕ × ℕ) (k : ℕ) : Prop := s.1 ≤ k ∧ k ≤ s.2

/-- Two segments share no position. -/
def Disj (a b : ℕ × ℕ) : Prop := ∀ k, ¬(inSeg a k ∧ inSeg b k)

theorem Disj.symm2 {a b : ℕ × ℕ} (h : Disj a b) : Disj b a :=
  fun k hk => h k ⟨hk.2, hk.1⟩

/-- Every pair of positions not lying together inside one pending segment
is already in sorted order. -/
def CrossOK {α : Type} [Inhabited α] [LinearOrder α] (v : List α)
    (t : List ℕ) (pending : List (ℕ × ℕ)) : Prop :=
  ∀ p q, p < q → q < t.length →
    (∀ s ∈ pending, ¬(inSeg s p ∧ inSeg s q)) →
    keyAt v t p ≤ keyAt v t q

/-- Total remaining work: the summed closed lengths of the pending
segments. -/
def pendMeasure : List (ℕ × ℕ) → ℕ
  | [] => 0
  | s :: rest => (s.2 - s.1 + 1) + pendMeasure rest

/-- After a segment routine ran on [pl, pr], every pair that is not wholly
inside [pl, pr] and is not excused by a remaining stack segment is in
order, provided the stack segments avoid [pl, pr]. -/
theorem crossOK_step {α : Type} [Inhabited α] [LinearOrder α] (v : List α)
    {t t2 : List ℕ} {pl pr : ℕ} {stack : List (ℕ × ℕ)}
    (hf : SegFrame t t2 pl pr)
    (hcross : CrossOK v t ((pl, pr) :: stack))
    (hdisj : ∀ s ∈ stack, Disj (pl, pr) s) :
    ∀ p q, p < q → q < t2.length →
      (∀ s ∈ stack, ¬(inSeg s p ∧ inSeg s q)) →
      ¬(pl ≤ p ∧ q ≤ pr) →
      keyAt v t2 p ≤ keyAt v t2 q := by
  intro p q hpq hql hex hnotin
  have hlen : t2.length = t.length := hf.1
  by_cases hp : pl ≤ p ∧ p ≤ pr
  · -- p inside, so q is beyond pr
    have hqout : pr < q := by
      rcases Nat.lt_or_ge pr q with h | h
      · exact h
      · exact absurd ⟨hp.1, h⟩ hnotin
    obtain ⟨q', hq1, hq2, hq3, hq4⟩ :=
      segValue_mem hf hp.1 hp.2 (lt_trans hpq hql)
    have hkp : keyAt v t2 p = keyAt v t q' := by
      unfold keyAt
      rw [← hq4]
    have hkq : keyAt v t2 q = keyAt v t q :=
      keyAt_eq_of_getD_eq v (hf.2.2 q (Or.inr hqout))
    rw [hkp, hkq]
    refine hcross q' q (by omega) (by omega) ?_
    intro s hs
    rcases List.mem_cons.mp hs with h | h
    · rw [h]
      intro hc
      exact absurd hc.2.2 (by omega)
    · intro hc
      exact hdisj s h q' ⟨⟨hq1, hq2⟩, hc.1⟩
  · by_cases hq : pl ≤ q ∧ q ≤ pr
    · -- q inside, p before pl
      have hpout : p < pl := by
        rcases Nat.lt_or_ge p pl with h | h
        · exact h
        · exact absurd ⟨h, by omega⟩ hp
      obtain ⟨q', hq1, hq2, hq3, hq4⟩ := segValue_mem hf hq.1 hq.2 hql
      have hkq : keyAt v t2 q = keyAt v t q' := by
        unfold keyAt
        rw [← hq4]
      have hkp : keyAt v t2 p = keyAt v t p :=
        keyAt_eq_of_getD_eq v (hf.2.2 p (Or.inl hpout))
      rw [hkp, hkq]
      refine hcross p q' (by omega) (by omega) ?_
      intro s hs
      rcases List.mem_cons.mp hs with h | h
      · rw [h]
        intro hc
        exact absurd hc.1.1 (by omega)
      · intro hc
        exact hdisj s h q' ⟨⟨hq1, hq2⟩, hc.2⟩
    · -- both outside [pl, pr], untouched
      have hp3 : ¬(pl ≤ p ∧ p ≤ pr) := hp
      have hq3 : ¬(pl ≤ q ∧ q ≤ pr) := hq
      unfold inSeg at hp3 hq3
      have hp2 : p < pl ∨ pr < p := by omega
      have hq2 : q < pl ∨ pr < q := by omega
      rw [keyAt_eq_of_getD_eq v (hf.2.2 p hp2),
        keyAt_eq_of_getD_eq v (hf.2.2 q hq2)]
      refine hcross p q hpq (by omega) ?_
      intro s hs
      rcases List.mem_cons.mp hs with h | h
      · rw [h]
        intro hc
        rcases hp2 with h2 | h2
        · exact absurd hc.1.1 (by omega)
        · exact absurd hc.1.2 (by omega)
      · exact hex s h

/-- After sorting the popped segment, every pair not excused by a
remaining stack segment is in order. -/
theorem crossOK_pop {α : Type} [Inhabited α] [LinearOrder α] (v : List α)
    {t t2 : List ℕ} {pl pr : ℕ} {stack : List (ℕ × ℕ)}
    (hf : SegFrame t t2 pl pr) (hsort : SortedSeg v t2 pl pr)
    (hcross : CrossOK v t ((pl, pr) :: stack))
    (hdisj : ∀ s ∈ stack, Disj (pl, pr) s) :
    CrossOK v t2 stack := by
  intro p q hpq hql hex
  by_cases hin : pl ≤ p ∧ q ≤ pr
  · exact hsort p q hin.1 (le_of_lt hpq) hin.2
  · exact crossOK_step v hf hcross hdisj p q hpq hql hex hin

/-- The introsort driver sorts the whole list whenever the pending
segments are in range, pairwise disjoint, every non-excused pair is in
order and the fuel covers the remaining work. -/
theorem qsortLoop_spec {α : Type} [Inhabited α] [LinearOrder α]
    {lt : α → α → Bool} (hlt : ∀ a b, lt a b = true ↔ a < b) (v : List α) :
    ∀ (fuel : ℕ) (t : List ℕ) (stack : List (ℕ × ℕ)) (pl pr : ℕ)
      (depth : ℤ),
      (∀ s ∈ (pl, pr) :: stack, s.1 ≤ s.2 ∧ s.2 < t.length) →
      ((pl, pr) :: stack).Pairwise Disj →
      CrossOK v t ((pl, pr) :: stack) →
      pendMeasure ((pl, pr) :: stack) ≤ fuel →
      (qsortLoop lt v t stack pl pr depth fuel).length = t.length ∧
      ((qsortLoop lt v t stack pl pr depth fuel) ~ t) ∧
      ∀ p q, p < q → q < t.length →
        keyAt v (qsortLoop lt v t stack pl pr depth fuel) p ≤
          keyAt v (qsortLoop lt v t stack pl pr depth fuel) q := by
  intro fuel
  induction fuel with
  | zero =>
    intro t stack pl pr depth hbounds hpw hcross hmu
    simp only [pendMeasure] at hmu
    omega
  | succ fuel ih =>
    intro t stack pl pr depth hbounds hpw hcross hmu
    have hbhead := hbounds (pl, pr) (List.mem_cons_self _ _)
    have hpw' := List.pairwise_cons.mp hpw
    by_cases h1 : pr - pl > 15
    · by_cases h2 : depth < 0
      · -- depth budget exhausted: heapsort the segment, pop
        obtain ⟨hsf, hss⟩ := heapsortSeg_spec hlt v t pl pr hbhead.1 hbhead.2
        have hnext := crossOK_pop v hsf hss hcross hpw'.1
        rcases stack with _ | ⟨⟨l, r⟩, rest⟩
        · have hred : qsortLoop lt v t [] pl pr depth (fuel+1)
              = heapsortSeg lt v t pl pr := by
            rw [qsortLoop, if_pos h1, if_pos h2]
          rw [hred]
          refine ⟨hsf.1, hsf.2.1, ?_⟩
          intro p q hpq hql
          exact hnext p q hpq (by rw [hsf.1]; exact hql)
            (fun s hs => absurd hs (List.not_mem_nil s))
        · have hred : qsortLoop lt v t ((l, r) :: rest) pl pr depth (fuel+1)
              = qsortLoop lt v (heapsortSeg lt v t pl pr) rest l r
                  (depth - 1) fuel := by
            rw [qsortLoop, if_pos h1, if_pos h2]
          rw [hred]
          obtain ⟨g1, g2, g3⟩ := ih (heapsortSeg lt v t pl pr) rest l r
            (depth - 1)
            (by
              intro s hs
              have := hbounds s (List.mem_cons_of_mem _ hs)
              exact ⟨this.1, by rw [hsf.1]; exact this.2⟩)
            hpw'.2 hnext
            (by simp only [pendMeasure] at hmu ⊢; omega)
          refine ⟨g1.trans hsf.1, g2.trans hsf.2.1, ?_⟩
          intro p q hpq hql
          exact g3 p q hpq (by rw [hsf.1]; exact hql)
      · -- partition, push the larger half, recurse on the smaller
        obtain ⟨hsf, hpi1, hpi2, hleft, hright⟩ :=
          partitionSeg_spec hlt v t pl pr (by omega) hbhead.2
        set pi := (partitionSeg lt v t pl pr).2 with hpidef
        set t2 := (partitionSeg lt v t pl pr).1 with ht2def
        have hlen2 : t2.length = t.length := hsf.1
        have hbnew : ∀ s' : ℕ × ℕ,
            (s' = (pl, pi - 1) ∨ s' = (pi + 1, pr) ∨ s' ∈ stack) →
            s'.1 ≤ s'.2 ∧ s'.2 < t2.length := by
          intro s' hs'
          rcases hs' with h | h | h
          · rw [h]
            exact ⟨by omega, by rw [hlen2]; omega⟩
          · rw [h]
            exact ⟨by omega, by rw [hlen2]; exact hbhead.2⟩
          · have := hbounds s' (List.mem_cons_of_mem _ h)
            exact ⟨this.1, by rw [hlen2]; exact this.2⟩
        have hdA : ∀ s' ∈ stack, Disj (pl, pi - 1) s' := by
          intro s' hs' k hk
          exact hpw'.1 s' hs' k ⟨⟨hk.1.1, by
            have := hk.1.2; simp only at this ⊢; omega⟩, hk.2⟩
        have hdB : ∀ s' ∈ stack, Disj (pi + 1, pr) s' := by
          intro s' hs' k hk
          exact hpw'.1 s' hs' k ⟨⟨by
            have := hk.1.1; simp only at this ⊢; omega, hk.1.2⟩, hk.2⟩
        have hdAB : Disj (pl, pi - 1) (pi + 1, pr) := by
          intro k hk
          have h1 := hk.1.2
          have h2 := hk.2.1
          simp only at h1 h2
          omega
        have hcrossNew : ∀ (L : List (ℕ × ℕ)),
            (∀ x, x ∈ L ↔ (x = (pl, pi - 1) ∨ x = (pi + 1, pr) ∨
              x ∈ stack)) →
            CrossOK v t2 L := by
          intro L hL p q hpq hql hex
          by_cases hin : pl ≤ p ∧ q ≤ pr
          · have hexA := hex (pl, pi - 1) ((hL _).mpr (Or.inl rfl))
            have hexB := hex (pi + 1, pr) ((hL _).mpr (Or.inr (Or.inl rfl)))
            have hqpi : pi ≤ q := by
              by_contra hc
              exact hexA ⟨⟨hin.1, by simp only; omega⟩,
                ⟨by simp only; omega, by simp only; omega⟩⟩
            have hppi : p ≤ pi := by
              by_contra hc
              exact hexB ⟨⟨by simp only; omega, by simp only; omega⟩,
                ⟨by simp only; omega, hin.2⟩⟩
            have hk1 : keyAt v t2 p ≤ keyAt v t2 pi := by
              rcases Nat.lt_or_ge p pi with h | h
              · exact hleft p hin.1 h
              · have hpe : p = pi := by omega
                rw [hpe]
            exact le_trans hk1 (hright q hqpi hin.2)
          · refine crossOK_step v hsf hcross hpw'.1 p q hpq hql ?_ hin
            intro s' hs'
            exact hex s' ((hL _).mpr (Or.inr (Or.inr hs')))
        have hred : qsortLoop lt v t stack pl pr depth (fuel+1)
            = if pi - pl < pr - pi then
                qsortLoop lt v t2 ((pi + 1, pr) :: stack) pl (pi - 1)
                  (depth - 1) fuel
              else
                qsortLoop lt v t2 ((pl, pi - 1) :: stack) (pi + 1) pr
                  (depth - 1) fuel := by
          rw [qsortLoop, if_pos h1, if_neg h2]
        rw [hred]
        by_cases h3 : pi - pl < pr - pi
        · rw [if_pos h3]
          obtain ⟨g1, g2, g3⟩ := ih t2 ((pi + 1, pr) :: stack) pl (pi - 1)
            (depth - 1)
            (by
              intro s' hs'
              refine hbnew s' ?_
              simpa using hs')
            (List.pairwise_cons.mpr ⟨by
              intro y hy
              rcases List.mem_cons.mp hy with h | h
              · rw [h]; exact hdAB
              · exact hdA y h,
              List.pairwise_cons.mpr ⟨hdB, hpw'.2⟩⟩)
            (hcrossNew _ (by intro x; simp [List.mem_cons]))
            (by simp only [pendMeasure] at hmu ⊢; omega)
          refine ⟨g1.trans hlen2, g2.trans hsf.2.1, ?_⟩
          intro p q hpq hql
          exact g3 p q hpq (by rw [hlen2]; exact hql)
        · rw [if_neg h3]
          obtain ⟨g1, g2, g3⟩ := ih t2 ((pl, pi - 1) :: stack) (pi + 1) pr
            (depth - 1)
            (by
              intro s' hs'
              refine hbnew s' ?_
              rcases List.mem_cons.mp hs' with h | h
              · exact Or.inr (Or.inl h)
              · rcases List.mem_cons.mp h with h4 | h4
                · exact Or.inl h4
                · exact Or.inr (Or.inr h4))
            (List.pairwise_cons.mpr ⟨by
              intro y hy
              rcases List.mem_cons.mp hy with h | h
              · rw [h]; exact hdAB.symm2
              · exact hdB y h,
              List.pairwise_cons.mpr ⟨hdA, hpw'.2⟩⟩)
            (hcrossNew _ (by intro x; simp [List.mem_cons]; tauto))
            (by simp only [pendMeasure] at hmu ⊢; omega)
          refine ⟨g1.trans hlen2, g2.trans hsf.2.1, ?_⟩
          intro p q hpq hql
          exact g3 p q hpq (by rw [hlen2]; exact hql)
    · -- short segment: insertion sort, pop
      obtain ⟨hsf, hss⟩ := insertionSeg_spec hlt v t pl pr hbhead.2
      have hnext := crossOK_pop v hsf hss hcross hpw'.1
      rcases stack with _ | ⟨⟨l, r⟩, rest⟩
      · have hred : qsortLoop lt v t [] pl pr depth (fuel+1)
            = insertionSeg lt v t pl pr := by
          rw [qsortLoop, if_neg h1]
        rw [hred]
        refine ⟨hsf.1, hsf.2.1, ?_⟩
        intro p q hpq hql
        exact hnext p q hpq (by rw [hsf.1]; exact hql)
          (fun s hs => absurd hs (List.not_mem_nil s))
      · have hred : qsortLoop lt v t ((l, r) :: rest) pl pr depth (fuel+1)
            = qsortLoop lt v (insertionSeg lt v t pl pr) rest l r
                depth fuel := by
          rw [qsortLoop, if_neg h1]
        rw [hred]
        obtain ⟨g1, g2, g3⟩ := ih (insertionSeg lt v t pl pr) rest l r depth
          (by
            intro s hs
            have := hbounds s (List.mem_cons_of_mem _ hs)
            exact ⟨this.1, by rw [hsf.1]; exact this.2⟩)
          hpw'.2 hnext
          (by simp only [pendMeasure] at hmu ⊢; omega)
        refine ⟨g1.trans hsf.1, g2.trans hsf.2.1, ?_⟩
        intro p q hpq hql
        exact g3 p q hpq (by rw [hsf.1]; exact hql)

/-- np.argsort. The result indexes the whole value list, is a permutation
of the positions and reads the values in ascending order. -/
theorem npArgsortQuick_spec {α : Type} [Inhabited α] [LinearOrder α]
    {lt : α → α → Bool} (hlt : ∀ a b, lt a b = true ↔ a < b) (v : List α) :
    (npArgsortQuick lt v).length = v.length ∧
    ((npArgsortQuick lt v) ~ List.range v.length) ∧
    ∀ p q, p < q → q < v.length →
      keyAt v (npArgsortQuick lt v) p ≤ keyAt v (npArgsortQuick lt v) q := by
  rcases Nat.eq_zero_or_pos v.length with h0 | hpos
  · have hv : v = [] := List.length_eq_zero.mp h0
    subst hv
    have he : npArgsortQuick lt ([] : List α) = [] := rfl
    rw [he]
    refine ⟨rfl, by simp, ?_⟩
    intro p q hpq hql
    simp at hql
  · obtain ⟨g1, g2, g3⟩ := qsortLoop_spec hlt v (2 * v.length + 2)
      (List.range v.length) [] 0 (v.length - 1)
      (2 * (Nat.log2 v.length : ℤ))
      (by
        intro s hs
        rcases List.mem_cons.mp hs with h | h
        · rw [h]
          exact ⟨Nat.zero_le _, by rw [List.length_range]; omega⟩
        · exact absurd h (List.not_mem_nil s))
      (List.pairwise_cons.mpr
        ⟨fun y hy => absurd hy (List.not_mem_nil y), List.Pairwise.nil⟩)
      (by
        intro p q hpq hql hex
        exfalso
        have hql2 : q < v.length := by
          rw [List.length_range] at hql
          exact hql
        exact hex (0, v.length - 1) (List.mem_cons_self _ _)
          ⟨⟨Nat.zero_le p, by simp only; omega⟩,
            ⟨Nat.zero_le q, by simp only; omega⟩⟩)
      (by simp only [pendMeasure]; omega)
    rw [npArgsortQuick]
    refine ⟨g1.trans (List.length_range _), g2, ?_⟩
    intro p q hpq hql
    exact g3 p q hpq (by rw [List.length_range]; exact hql)

/-- Reading a reversed list. -/
theorem getD_reverse {β : Type} (d : β) (t : List β) {j : ℕ}
    (hj : j < t.length) :
    t.reverse.getD j d = t.getD (t.length - 1 - j) d := by
  rw [List.getD_eq_getElem _ _ (by rw [List.length_reverse]; exact hj),
    List.getElem_reverse, List.getD_eq_getElem _ _ (by omega)]

/-- Reading a mapped list at an in-range position. -/
theorem getD_map_eq {β γ : Type} (f : β → γ) (l : List β) (dβ : β)
    (dγ : γ) {m : ℕ} (hm : m < l.length) :
    (l.map f).getD m dγ = f (l.getD m dβ) := by
  rw [List.getD_eq_getElem _ _ (by rw [List.length_map]; exact hm),
    List.getElem_map, List.getD_eq_getElem _ _ hm]

/-- The stable ascending order on tosort values: by key, ties by the
value (the original row position) itself. -/
def lexLt {α : Type} [Inhabited α] [LinearOrder α] (v : List α)
    (x y : ℕ) : Prop :=
  v.getD x default < v.getD y default ∨
    (v.getD x default = v.getD y default ∧ x < y)

/-- The inner insertion walk is stable: starting from a prefix that is
strictly lex-sorted and inserting a value whose row position exceeds all
present ones yields a strictly lex-sorted segment. -/
theorem insertInner_stable {α : Type} [Inhabited α] [LinearOrder α]
    {lt : α → α → Bool} (hlt : ∀ a b, lt a b = true ↔ a < b) (v : List α)
    (pl pi0 : ℕ) (vp : α) (vi : ℕ) (hvp : v.getD vi default = vp) :
    ∀ (fuel : ℕ) (t : List ℕ) (pj : ℕ), pl ≤ pj → pj ≤ pi0 →
      pi0 < t.length → pj - pl ≤ fuel →
      (∀ a b, pl ≤ a → a < b → b ≤ pj - 1 →
        lexLt v (t.getD a 0) (t.getD b 0)) →
      (∀ k, pj < k → k ≤ pi0 → vp < keyAt v t k) →
      (∀ a b, pj < a → a < b → b ≤ pi0 →
        lexLt v (t.getD a 0) (t.getD b 0)) →
      (∀ a k, pl ≤ a → a < pj → pj < k → k ≤ pi0 →
        lexLt v (t.getD a 0) (t.getD k 0)) →
      (∀ k, pl ≤ k → k ≤ pi0 → k ≠ pj → t.getD k 0 < vi) →
      (insertInner lt v t vp vi pj pl fuel).length = t.length ∧
      (∀ k, k < pl ∨ pi0 < k →
        (insertInner lt v t vp vi pj pl fuel).getD k 0 = t.getD k 0) ∧
      (∀ a b, pl ≤ a → a < b → b ≤ pi0 →
        lexLt v ((insertInner lt v t vp vi pj pl fuel).getD a 0)
          ((insertInner lt v t vp vi pj pl fuel).getD b 0)) ∧
      (∀ k, pl ≤ k → k ≤ pi0 →
        (insertInner lt v t vp vi pj pl fuel).getD k 0 = vi ∨
          ∃ k2, pl ≤ k2 ∧ k2 ≤ pi0 ∧
            (insertInner lt v t vp vi pj pl fuel).getD k 0
              = t.getD k2 0) := by
  intro fuel
  induction fuel with
  | zero =>
    intro t pj h1 h2 h3 h4 hpre hgt hmono hcross hidx
    have hpj : pj = pl := by omega
    subst hpj
    rw [insertInner]
    have hpllen : pj < t.length := by omega
    refine ⟨List.length_set _ _ _, ?_, ?_, ?_⟩
    · intro k hk
      exact getD_set_ne t _ (by omega)
    · intro a b ha hab hb
      by_cases hapl : a = pj
      · subst hapl
        rw [getD_set_self t _ _ hpllen, getD_set_ne t _ (by omega)]
        left
        rw [hvp]
        exact hgt b (by omega) hb
      · rw [getD_set_ne t _ hapl, getD_set_ne t _ (by omega)]
        exact hmono a b (by omega) hab hb
    · intro k hk1 hk2
      by_cases hkpl : k = pj
      · subst hkpl
        exact Or.inl (getD_set_self t _ _ hpllen)
      · exact Or.inr ⟨k, hk1, hk2, getD_set_ne t _ hkpl⟩
  | succ fuel ih =>
    intro t pj h1 h2 h3 h4 hpre hgt hmono hcross hidx
    rw [insertInner]
    by_cases hc : pl < pj ∧ lt vp (keyAt v t (pj-1))
    · rw [if_pos hc]
      have hvplt : vp < keyAt v t (pj-1) := (hlt _ _).mp hc.2
      have hpjlen : pj < t.length := by omega
      have hset_eq : (t.set pj (t.getD (pj-1) 0)).getD pj 0
          = t.getD (pj-1) 0 := getD_set_self t _ _ hpjlen
      have hset_ne : ∀ k, k ≠ pj →
          (t.set pj (t.getD (pj-1) 0)).getD k 0 = t.getD k 0 :=
        fun k hk => getD_set_ne t _ hk
      obtain ⟨s1, s2, s3, s4⟩ := ih (t.set pj (t.getD (pj-1) 0)) (pj-1)
        (by omega) (by omega) (by rw [List.length_set]; exact h3)
        (by omega)
        (by
          intro a b ha hab hb
          rw [hset_ne a (by omega), hset_ne b (by omega)]
          exact hpre a b ha hab (by omega))
        (by
          intro k hk1 hk2
          by_cases hkpj : k = pj
          · subst hkpj
            have he : keyAt v (t.set k (t.getD (k-1) 0)) k
                = keyAt v t (k-1) := by
              unfold keyAt
              rw [hset_eq]
            rw [he]
            exact hvplt
          · have he : keyAt v (t.set pj (t.getD (pj-1) 0)) k
                = keyAt v t k := by
              unfold keyAt
              rw [hset_ne k hkpj]
            rw [he]
            exact hgt k (by omega) hk2)
        (by
          intro a b ha hab hb
          by_cases hapj : a = pj
          · subst hapj
            rw [hset_eq, hset_ne b (by omega)]
            exact hcross (a-1) b (by omega) (by omega) (by omega) hb
          · rw [hset_ne a hapj, hset_ne b (by omega)]
            exact hmono a b (by omega) hab hb)
        (by
          intro a k ha hak hk1 hk2
          rw [hset_ne a (by omega)]
          by_cases hkpj : k = pj
          · subst hkpj
            rw [hset_eq]
            exact hpre a (k-1) ha (by omega) (by omega)
          · rw [hset_ne k hkpj]
            exact hcross a k ha (by omega) (by omega) hk2)
        (by
          intro k hk1 hk2 hkne
          by_cases hkpj : k = pj
          · subst hkpj
            rw [hset_eq]
            exact hidx (k-1) (by omega) (by omega) (by omega)
          · rw [hset_ne k hkpj]
            exact hidx k hk1 hk2 hkpj)
      refine ⟨s1.trans (List.length_set _ _ _), ?_, s3, ?_⟩
      · intro k hk
        rw [s2 k hk, hset_ne k (by omega)]
      · intro k hk1 hk2
        rcases s4 k hk1 hk2 with h | ⟨k2, hk21, hk22, hk23⟩
        · exact Or.inl h
        · by_cases hk2pj : k2 = pj
          · subst hk2pj
            rw [hset_eq] at hk23
            exact Or.inr ⟨k2 - 1, by omega, by omega, hk23⟩
          · rw [hset_ne k2 hk2pj] at hk23
            exact Or.inr ⟨k2, hk21, hk22, hk23⟩
    · rw [if_neg hc]
      have hpjlen : pj < t.length := by omega
      have hstop : pl < pj → keyAt v t (pj-1) ≤ vp := by
        intro hplpj
        by_contra hcon
        push_neg at hcon
        exact hc ⟨hplpj, (hlt _ _).mpr hcon⟩
      refine ⟨List.length_set _ _ _, ?_, ?_, ?_⟩
      · intro k hk
        exact getD_set_ne t _ (by omega)
      · intro a b ha hab hb
        by_cases hbpj : b < pj
        · rw [getD_set_ne t _ (by omega), getD_set_ne t _ (by omega)]
          exact hpre a b ha hab (by omega)
        · by_cases hbpj2 : b = pj
          · subst hbpj2
            rw [getD_set_ne t _ (by omega), getD_set_self t _ _ hpjlen]
            have hkle : v.getD (t.getD a 0) default ≤ vp := by
              by_cases hapj1 : a = b - 1
              · subst hapj1
                exact hstop (by omega)
              · have hl := hpre a (b-1) ha (by omega) (by omega)
                have hs := hstop (by omega)
                unfold keyAt at hs
                rcases hl with h | ⟨h, _⟩
                · exact le_trans (le_of_lt h) hs
                · rw [h]
                  exact hs
            rcases lt_or_eq_of_le hkle with h | h
            · left
              rw [hvp]
              exact h
            · right
              rw [hvp]
              exact ⟨h, hidx a ha (by omega) (by omega)⟩
          · have hbgt : pj < b := by omega
            by_cases hapj : a = pj
            · subst hapj
              rw [getD_set_self t _ _ hpjlen, getD_set_ne t _ (by omega)]
              left
              rw [hvp]
              exact hgt b hbgt hb
            · by_cases hapj2 : a < pj
              · rw [getD_set_ne t _ (by omega), getD_set_ne t _ (by omega)]
                exact hcross a b ha hapj2 hbgt hb
              · rw [getD_set_ne t _ hapj, getD_set_ne t _ (by omega)]
                exact hmono a b (by omega) hab hb
      · intro k hk1 hk2
        by_cases hkpj : k = pj
        · subst hkpj
          exact Or.inl (getD_set_self t _ _ hpjlen)
        · exact Or.inr ⟨k, hk1, hk2, getD_set_ne t _ hkpj⟩

/-- The insertion-sort sweep is stable: a lex-sorted prefix of small row
positions plus an untouched identity suffix yields a fully lex-sorted
segment. -/
theorem insertionSegAux_stable {α : Type} [Inhabited α] [LinearOrder α]
    {lt : α → α → Bool} (hlt : ∀ a b, lt a b = true ↔ a < b) (v : List α)
    (pl pr : ℕ) :
    ∀ (fuel : ℕ) (t : List ℕ) (pi : ℕ), pl + 1 ≤ pi → pr < t.length →
      pr + 2 - pi ≤ fuel →
      (∀ k, pi ≤ k → k ≤ pr → t.getD k 0 = k) →
      (∀ k, pl ≤ k → k ≤ pi - 1 → t.getD k 0 < pi) →
      (∀ a b, pl ≤ a → a < b → b ≤ pi - 1 →
        lexLt v (t.getD a 0) (t.getD b 0)) →
      (insertionSegAux lt v t pl pr pi fuel).length = t.length ∧
      ∀ a b, pl ≤ a → a < b → b ≤ pr →
        lexLt v ((insertionSegAux lt v t pl pr pi fuel).getD a 0)
          ((insertionSegAux lt v t pl pr pi fuel).getD b 0) := by
  intro fuel
  induction fuel with
  | zero =>
    intro t pi hpi hlen hfuel hsuffix hsmall hsorted
    rw [insertionSegAux]
    exact ⟨rfl, fun a b ha hab hb =>
      hsorted a b ha hab (by omega)⟩
  | succ fuel ih =>
    intro t pi hpi hlen hfuel hsuffix hsmall hsorted
    by_cases hle : pi ≤ pr
    · have hred : insertionSegAux lt v t pl pr pi (fuel+1)
          = insertionSegAux lt v
              (insertInner lt v t (v.getD (t.getD pi 0) default)
                (t.getD pi 0) pi pl t.length) pl pr (pi+1) fuel := by
        rw [insertionSegAux, if_pos hle]
      rw [hred]
      have hvi : t.getD pi 0 = pi := hsuffix pi (le_refl _) hle
      obtain ⟨s1, s2, s3, s4⟩ := insertInner_stable hlt v pl pi
        (v.getD (t.getD pi 0) default) (t.getD pi 0) rfl t.length t pi
        (by omega) (le_refl _) (by omega) (by omega)
        (fun a b ha hab hb => hsorted a b ha hab hb)
        (by intro k hk1 hk2; omega)
        (by intro a b ha hab hb; omega)
        (by intro a k ha hak hk1 hk2; omega)
        (by
          intro k hk1 hk2 hkne
          rw [hvi]
          have := hsmall k hk1 (by omega)
          exact this)
      obtain ⟨w1, w2⟩ := ih
        (insertInner lt v t (v.getD (t.getD pi 0) default)
          (t.getD pi 0) pi pl t.length) (pi+1)
        (by omega) (by rw [s1]; exact hlen) (by omega)
        (by
          intro k hk1 hk2
          rw [s2 k (Or.inr (by omega))]
          exact hsuffix k (by omega) hk2)
        (by
          intro k hk1 hk2
          rcases s4 k hk1 (by omega) with h | ⟨k2, hk21, hk22, hk23⟩
          · rw [h, hvi]
            omega
          · rw [hk23]
            by_cases hk2pi : k2 = pi
            · rw [hk2pi, hvi]
              omega
            · have := hsmall k2 hk21 (by omega)
              omega)
        (by
          intro a b ha hab hb
          exact s3 a b ha hab (by omega))
      exact ⟨w1.trans s1, w2⟩
    · have hred : insertionSegAux lt v t pl pr pi (fuel+1) = t := by
        rw [insertionSegAux, if_neg hle]
      rw [hred]
      exact ⟨rfl, fun a b ha hab hb => hsorted a b ha hab (by omega)⟩

/-- Insertion sort of the full identity tosort is a stable argsort: its
result is strictly sorted in the (key, original position) order. -/
theorem insertionSeg_range_stable {α : Type} [Inhabited α] [LinearOrder α]
    {lt : α → α → Bool} (hlt : ∀ a b, lt a b = true ↔ a < b) (v : List α)
    (n : ℕ) (hn : 1 ≤ n) :
    ∀ a b, a < b → b ≤ n - 1 →
      lexLt v ((insertionSeg lt v (List.range n) 0 (n-1)).getD a 0)
        ((insertionSeg lt v (List.range n) 0 (n-1)).getD b 0) := by
  have hrg : ∀ k, k < n → (List.range n).getD k 0 = k := by
    intro k hk
    rw [List.getD_eq_getElem _ _ (by rw [List.length_range]; exact hk),
      List.getElem_range]
  obtain ⟨w1, w2⟩ := insertionSegAux_stable hlt v 0 (n-1)
    ((List.range n).length + 1) (List.range n) 1 (le_refl _)
    (by rw [List.length_range]; omega)
    (by rw [List.length_range]; omega)
    (by intro k hk1 hk2; exact hrg k (by omega))
    (by
      intro k hk1 hk2
      have := hrg k (by omega)
      omega)
    (by intro a b ha hab hb; omega)
  intro a b hab hb
  exact w2 a b (Nat.zero_le a) hab hb

/-- For at most 16 values the introsort driver immediately runs one
insertion sort, so np.argsort is stable: the indexer is strictly sorted
in the (key, original position) order. -/
theorem npArgsortQuick_stable {α : Type} [Inhabited α] [LinearOrder α]
    {lt : α → α → Bool} (hlt : ∀ a b, lt a b = true ↔ a < b) (v : List α)
    (h16 : v.length ≤ 16) :
    ∀ a b, a < b → b < v.length →
      lexLt v ((npArgsortQuick lt v).getD a 0)
        ((npArgsortQuick lt v).getD b 0) := by
  intro a b hab hb
  have hn : 1 ≤ v.length := by omega
  have hred : npArgsortQuick lt v
      = insertionSeg lt v (List.range v.length) 0 (v.length - 1) := by
    have hfe : 2 * v.length + 2 = (2 * v.length + 1) + 1 := rfl
    rw [npArgsortQuick, hfe, qsortLoop,
      if_neg (by omega : ¬(v.length - 1 - 0 > 15))]
  rw [hred]
  exact insertionSeg_range_stable hlt v v.length hn a b hab (by omega)

/-- pandas nargsort of an all-present (no NaN) descending sort: the
indexer covers all positions, is a permutation of them, and reads the
keys in non-increasing order. -/
theorem nargsortDesc_some_spec {α : Type} [Inhabited α] [LinearOrder α]
    {lt : α → α → Bool} (hlt : ∀ a b, lt a b = true ↔ a < b)
    (scores : List α) :
    (nargsortDesc lt (scores.map some)).length = scores.length ∧
    ((nargsortDesc lt (scores.map some)) ~ List.range scores.length) ∧
    (∀ j, j < scores.length →
      (nargsortDesc lt (scores.map some)).getD j 0 < scores.length) ∧
    (∀ j1 j2, j1 < j2 → j2 < scores.length →
      scores.getD ((nargsortDesc lt (scores.map some)).getD j2 0) default ≤
        scores.getD ((nargsortDesc lt (scores.map some)).getD j1 0)
          default) ∧
    (scores.length ≤ 16 → ∀ j1 j2, j1 < j2 → j2 < scores.length →
      scores.getD ((nargsortDesc lt (scores.map some)).getD j2 0) default <
          scores.getD ((nargsortDesc lt (scores.map some)).getD j1 0)
            default ∨
        (scores.getD ((nargsortDesc lt (scores.map some)).getD j2 0)
              default =
            scores.getD ((nargsortDesc lt (scores.map some)).getD j1 0)
              default ∧
          (nargsortDesc lt (scores.map some)).getD j1 0 <
            (nargsortDesc lt (scores.map some)).getD j2 0)) := by
  set N := scores.length with hN
  have hkl : (scores.map some).length = N := List.length_map _ _
  have hkey : ∀ i, i < N →
      (scores.map some).getD i none = some (scores.getD i default) := by
    intro i hi
    rw [List.getD_eq_getElem _ _ (by rw [hkl]; exact hi), List.getElem_map,
      List.getD_eq_getElem _ _ hi]
  have hfilter1 : (List.range ((scores.map some).length)).filter
      (fun i => ((scores.map some).getD i none).isSome) = List.range N := by
    rw [hkl]
    apply List.filter_eq_self.mpr
    intro a ha
    rw [hkey a (List.mem_range.mp ha)]
    rfl
  have hfilter2 : (List.range ((scores.map some).length)).filter
      (fun i => !((scores.map some).getD i none).isSome) = [] := by
    rw [hkl]
    apply List.filter_eq_nil_iff.mpr
    intro a ha
    rw [hkey a (List.mem_range.mp ha)]
    simp
  have hrev : ((List.range N).reverse.map
      (fun i => ((scores.map some).getD i none).getD default))
        = scores.reverse := by
    rw [List.map_reverse]
    congr 1
    apply List.ext_getElem
    · rw [List.length_map, List.length_range]
    · intro i h1 h2
      rw [List.getElem_map, List.getElem_range,
        hkey i (by simpa using h2)]
      rw [List.getD_eq_getElem _ _ (by simpa using h2)]
      rfl
  have hred : nargsortDesc lt (scores.map some) =
      ((npArgsortQuick lt scores.reverse).map
        (fun k => (List.range N).reverse.getD k 0)).reverse := by
    simp only [nargsortDesc]
    rw [hfilter1, hfilter2, hrev, List.append_nil]
  obtain ⟨q1, q2, q3⟩ := npArgsortQuick_spec hlt scores.reverse
  have hNrev : scores.reverse.length = N := List.length_reverse _
  rw [hNrev] at q2
  set p := npArgsortQuick lt scores.reverse with hp
  have hp1 : p.length = N := q1.trans hNrev
  have hpmem : ∀ k ∈ p, k < N := by
    intro k hk
    exact List.mem_range.mp (q2.mem_iff.mp hk)
  have hpa : ∀ m, m < N → p.getD m 0 < N := by
    intro m hm
    refine hpmem _ ?_
    rw [List.getD_eq_getElem _ _ (by omega)]
    exact List.getElem_mem _
  have hmaplen : (p.map (fun k => (List.range N).reverse.getD k 0)).length
      = N := by
    rw [List.length_map, hp1]
  have hlen : (nargsortDesc lt (scores.map some)).length = N := by
    rw [hred, List.length_reverse, hmaplen]
  have hpos : ∀ j, j < N → (nargsortDesc lt (scores.map some)).getD j 0
      = N - 1 - (p.getD (N - 1 - j) 0) := by
    intro j hj
    rw [hred, getD_reverse 0 _ (by rw [hmaplen]; exact hj), hmaplen]
    rw [getD_map_eq _ _ 0 0 (by rw [hp1]; omega),
      getD_reverse 0 _ (by rw [List.length_range]; exact hpa _ (by omega)),
      List.length_range,
      List.getD_eq_getElem _ _ (by rw [List.length_range]; omega),
      List.getElem_range]
  refine ⟨hlen, ?_, ?_, ?_, ?_⟩
  · rw [hred]
    have hmapg : (List.range N).map
        (fun k => (List.range N).reverse.getD k 0)
          = (List.range N).reverse := by
      have h := self_eq_map_range ((List.range N).reverse)
      rw [List.length_reverse, List.length_range] at h
      exact h.symm
    calc ((p.map (fun k => (List.range N).reverse.getD k 0)).reverse)
        ~ p.map (fun k => (List.range N).reverse.getD k 0) :=
          List.reverse_perm _
      _ ~ (List.range N).map (fun k => (List.range N).reverse.getD k 0) :=
          q2.map _
      _ = (List.range N).reverse := hmapg
      _ ~ List.range N := List.reverse_perm _
  · intro j hj
    rw [hpos j hj]
    omega
  · intro j1 j2 h12 hj2
    rw [hpos j1 (by omega), hpos j2 hj2]
    have ha1 : p.getD (N - 1 - j1) 0 < N := hpa _ (by omega)
    have ha2 : p.getD (N - 1 - j2) 0 < N := hpa _ (by omega)
    have hs1 : scores.getD (N - 1 - p.getD (N - 1 - j1) 0) default
        = scores.reverse.getD (p.getD (N - 1 - j1) 0) default := by
      rw [getD_reverse default _ (by rw [hN] at ha1; exact ha1)]
    have hs2 : scores.getD (N - 1 - p.getD (N - 1 - j2) 0) default
        = scores.reverse.getD (p.getD (N - 1 - j2) 0) default := by
      rw [getD_reverse default _ (by rw [hN] at ha2; exact ha2)]
    rw [hs1, hs2]
    have h := q3 (N - 1 - j2) (N - 1 - j1) (by omega) (by omega)
    unfold keyAt at h
    exact h
  · intro h16 j1 j2 h12 hj2
    rw [hpos j1 (by omega), hpos j2 hj2]
    have ha1 : p.getD (N - 1 - j1) 0 < N := hpa _ (by omega)
    have ha2 : p.getD (N - 1 - j2) 0 < N := hpa _ (by omega)
    have hs1 : scores.getD (N - 1 - p.getD (N - 1 - j1) 0) default
        = scores.reverse.getD (p.getD (N - 1 - j1) 0) default := by
      rw [getD_reverse default _ (by rw [hN] at ha1; exact ha1)]
    have hs2 : scores.getD (N - 1 - p.getD (N - 1 - j2) 0) default
        = scores.reverse.getD (p.getD (N - 1 - j2) 0) default := by
      rw [getD_reverse default _ (by rw [hN] at ha2; exact ha2)]
    have hst := npArgsortQuick_stable hlt scores.reverse
      (by rw [hNrev]; exact h16) (N - 1 - j2) (N - 1 - j1)
      (by omega) (by rw [hNrev]; omega)
    unfold lexLt at hst
    rw [← hp] at hst
    rcases hst with h | ⟨he, hi2⟩
    · left
      rw [hs1, hs2]
      exact h
    · right
      constructor
      · rw [hs1, hs2, he]
      · omega

/-- Any list is the map of its defaulted reads over its positions. -/
theorem self_eq_map_range_g {β : Type} [Inhabited β] (t : List β) :
    t = (List.range t.length).map (fun k => t.getD k default) := by
  apply List.ext_getElem
  · simp
  · intro i h1 h2
    simp only [List.getElem_map, List.getElem_range]
    rw [List.getD_eq_getElem _ _ h1]

/-- ratLt decides the strict order on ℚ. -/
theorem ratLt_iff : ∀ a b : ℚ, ratLt a b = true ↔ a < b := by
  intro a b
  simp [ratLt]


/-- C6: the ranker computes match_score = skill_weight * skill_score +
salary_weight * salary_score for each item, returns a permutation of its
input ordered non-increasingly by that match score, and re-running it on
identical input yields the identical sequence. -/
theorem rank_sorted_perm (ws wa : ℚ) (items : List (ℚ × ℚ)) :
    ((rank ws wa items) ~ items) ∧
    (((rank ws wa items).map (fun x => ws * x.1 + wa * x.2)).Pairwise
      (· ≥ ·)) ∧
    rank ws wa items = rank ws wa items := by
  obtain ⟨r1, r2, r3, r4, _⟩ :=
    nargsortDesc_some_spec ratLt_iff (items.map (matchScore ws wa))
  rw [List.length_map] at r1 r2 r3 r4
  have hrank : rank ws wa items
      = (nargsortDesc ratLt ((items.map (matchScore ws wa)).map
          some)).map (fun i => items.getD i default) := rfl
  have hrl : (rank ws wa items).length = items.length := by
    rw [hrank, List.length_map, r1]
  refine ⟨?_, ?_, rfl⟩
  · rw [hrank]
    calc (nargsortDesc ratLt ((items.map (matchScore ws wa)).map
          some)).map (fun i => items.getD i default)
        ~ (List.range items.length).map (fun i => items.getD i default) :=
          r2.map _
      _ = items := (self_eq_map_range_g items).symm
  · apply List.pairwise_iff_getElem.mpr
    intro i j hi hj hij
    have hlm : ((rank ws wa items).map
        (fun x => ws * x.1 + wa * x.2)).length = items.length := by
      rw [List.length_map, hrl]
    have hiN : i < items.length := by rw [hlm] at hi; exact hi
    have hjN : j < items.length := by rw [hlm] at hj; exact hj
    have hread : ∀ m, m < items.length →
        (((rank ws wa items).map (fun x => ws * x.1 + wa * x.2)).getD m 0)
          = (items.map (matchScore ws wa)).getD
              ((nargsortDesc ratLt ((items.map (matchScore ws wa)).map
                some)).getD m 0) default := by
      intro m hm
      rw [getD_map_eq _ _ default 0 (by rw [hrl]; exact hm), hrank,
        getD_map_eq _ _ 0 default (by rw [r1]; exact hm)]
      rw [getD_map_eq (matchScore ws wa) items default default
        (r3 m hm)]
      rfl
    rw [← List.getD_eq_getElem _ 0 hi, ← List.getD_eq_getElem _ 0 hj,
      hread i hiN, hread j hjN]
    exact r4 i j hij hjN

/-- SPEC-SIDE comparison definition (§4.5 of the spec): the stable
descending order on row positions — higher match score first, ties kept
in original row order. -/
def stableDescBle (scores : List ℚ) (a b : ℕ) : Bool :=
  decide (scores.getD b default < scores.getD a default) ||
    (decide (scores.getD a default = scores.getD b default) &&
      decide (a ≤ b))

/-- SPEC-SIDE comparison definition (§4.5 of the spec): the ranker the
spec describes — sort descending by match score with a stable sort
(realized by the stable mergeSort over the row positions). -/
def stableRankSpec (ws wa : ℚ) (items : List (ℚ × ℚ)) : List (ℚ × ℚ) :=
  applyIndexer items ((List.range items.length).mergeSort
    (stableDescBle (items.map (matchScore ws wa))))

/-- C3(amended): for at most 16 items the sort np.sort_values performs is
one insertion sort, which is stable, so the ranking coincides with the
spec's stable descending ranker; beyond 16 items stability can fail (see
the counterexample). -/
theorem rank_stable_small (ws wa : ℚ) (items : List (ℚ × ℚ))
    (h16 : items.length ≤ 16) :
    rank ws wa items = stableRankSpec ws wa items := by
  obtain ⟨r1, r2, r3, r4, r5⟩ :=
    nargsortDesc_some_spec ratLt_iff (items.map (matchScore ws wa))
  rw [List.length_map] at r1 r2 r3 r4 r5
  have hstab := r5 h16
  have hble : ∀ a b, stableDescBle (items.map (matchScore ws wa)) a b
      = true ↔
      ((items.map (matchScore ws wa)).getD b default <
          (items.map (matchScore ws wa)).getD a default ∨
        ((items.map (matchScore ws wa)).getD a default =
            (items.map (matchScore ws wa)).getD b default ∧ a ≤ b)) := by
    intro a b
    simp [stableDescBle]
  have htrans : ∀ a b c,
      stableDescBle (items.map (matchScore ws wa)) a b = true →
      stableDescBle (items.map (matchScore ws wa)) b c = true →
      stableDescBle (items.map (matchScore ws wa)) a c = true := by
    intro a b c hab hbc
    rw [hble] at hab hbc ⊢
    rcases hab with h1 | ⟨e1, le1⟩ <;> rcases hbc with h2 | ⟨e2, le2⟩
    · exact Or.inl (lt_trans h2 h1)
    · left
      rw [← e2]
      exact h1
    · left
      rw [e1]
      exact h2
    · exact Or.inr ⟨e1.trans e2, le_trans le1 le2⟩
  have htotal : ∀ a b,
      (stableDescBle (items.map (matchScore ws wa)) a b ||
        stableDescBle (items.map (matchScore ws wa)) b a) = true := by
    intro a b
    rw [Bool.or_eq_true, hble, hble]
    rcases lt_trichotomy ((items.map (matchScore ws wa)).getD a default)
      ((items.map (matchScore ws wa)).getD b default) with h | h | h
    · exact Or.inr (Or.inl h)
    · rcases le_total a b with hab | hba
      · exact Or.inl (Or.inr ⟨h, hab⟩)
      · exact Or.inr (Or.inr ⟨h.symm, hba⟩)
    · exact Or.inl (Or.inl h)
  have hmperm : ((List.range items.length).mergeSort
      (stableDescBle (items.map (matchScore ws wa)))) ~
        List.range items.length :=
    List.mergeSort_perm _ _
  have hmnodup : ((List.range items.length).mergeSort
      (stableDescBle (items.map (matchScore ws wa)))).Nodup :=
    hmperm.nodup_iff.mpr (List.nodup_range _)
  have hmsorted := List.sorted_mergeSort htrans htotal
    (List.range items.length)
  have hrlen : (nargsortDesc ratLt
      (((items.map (matchScore ws wa))).map some)).length
        = items.length := r1
  have hsorted_r : List.Pairwise (fun a b =>
      (items.map (matchScore ws wa)).getD b default <
          (items.map (matchScore ws wa)).getD a default ∨
        ((items.map (matchScore ws wa)).getD a default =
            (items.map (matchScore ws wa)).getD b default ∧ a < b))
      (nargsortDesc ratLt (((items.map (matchScore ws wa))).map
        some)) := by
    apply List.pairwise_iff_getElem.mpr
    intro i j hi hj hij
    rw [← List.getD_eq_getElem _ 0 hi, ← List.getD_eq_getElem _ 0 hj]
    have h := hstab i j hij (by rw [hrlen] at hj; exact hj)
    rcases h with h | ⟨he, hlt2⟩
    · exact Or.inl h
    · exact Or.inr ⟨he.symm, hlt2⟩
  have hsorted_m : List.Pairwise (fun a b =>
      (items.map (matchScore ws wa)).getD b default <
          (items.map (matchScore ws wa)).getD a default ∨
        ((items.map (matchScore ws wa)).getD a default =
            (items.map (matchScore ws wa)).getD b default ∧ a < b))
      ((List.range items.length).mergeSort
        (stableDescBle (items.map (matchScore ws wa)))) := by
    have hand := List.Pairwise.and hmsorted hmnodup
    apply hand.imp
    intro a b hab
    obtain ⟨hb, hne⟩ := hab
    rw [hble] at hb
    rcases hb with h | ⟨he, hle⟩
    · exact Or.inl h
    · exact Or.inr ⟨he, by omega⟩
  haveI : IsAntisymm ℕ (fun a b =>
      (items.map (matchScore ws wa)).getD b default <
          (items.map (matchScore ws wa)).getD a default ∨
        ((items.map (matchScore ws wa)).getD a default =
            (items.map (matchScore ws wa)).getD b default ∧ a < b)) := by
    constructor
    intro a b h1 h2
    rcases h1 with h1 | ⟨e1, l1⟩ <;> rcases h2 with h2 | ⟨e2, l2⟩
    · exact absurd h2 (lt_asymm h1)
    · exact absurd h1 (by rw [e2]; exact lt_irrefl _)
    · exact absurd h2 (by rw [e1]; exact lt_irrefl _)
    · omega
  have heq : nargsortDesc ratLt (((items.map (matchScore ws wa))).map
      some) = (List.range items.length).mergeSort
        (stableDescBle (items.map (matchScore ws wa))) :=
    List.eq_of_perm_of_sorted (r2.trans hmperm.symm) hsorted_r hsorted_m
  show applyIndexer items (nargsortDesc ratLt
    (((items.map (matchScore ws wa))).map some)) = _
  rw [heq]
  rfl

/-- Seventeen items with identical match scores under weights (0, 1). -/
def tieItems : List (ℚ × ℚ) :=
  [(0,0),(1,0),(2,0),(3,0),(4,0),(5,0),(6,0),(7,0),(8,0),(9,0),(10,0),
   (11,0),(12,0),(13,0),(14,0),(15,0),(16,0)]

/-- Three items with a tie under weights (1, 0). -/
def tieWitnessItems : List (ℚ × ℚ) := [(1,0),(0,0),(1,0)]

set_option maxRecDepth 4000

/-- C3 counterexample: seventeen items all tied on match score. The sort
runs the 17-element introsort partition path of np.sort_values, which
permutes the tied rows instead of preserving their original order, so the
ranking is not the stable sort the spec promises. -/
theorem rank_stability_counterexample :
    tieItems.map (matchScore 0 1) = List.replicate 17 0 ∧
    rank 0 1 tieItems ≠ tieItems := by
  have h1 : tieItems.map (matchScore 0 1) = List.replicate 17 0 := by
    simp [tieItems, matchScore, List.replicate]
  have h2 : nargsortDesc ratLt ((List.replicate 17 (0:ℚ)).map some)
      = [0,9,15,14,13,12,11,10,8,1,7,6,5,4,3,2,16] := by decide
  refine ⟨h1, ?_⟩
  have h3 : rank 0 1 tieItems = applyIndexer tieItems
      [0,9,15,14,13,12,11,10,8,1,7,6,5,4,3,2,16] := by
    unfold rank
    rw [h1, h2]
  rw [h3]
  decide

/-- Witness for C3(amended): three items, two of them tied, stay in their
original relative order. -/
theorem rank_stable_small_witness :
    tieWitnessItems.length ≤ 16 ∧
      rank 1 0 tieWitnessItems = stableRankSpec 1 0 tieWitnessItems :=
  ⟨by decide, rank_stable_small 1 0 tieWitnessItems (by decide)⟩
